import Mathlib

/-
  Verification model of bluefog's topology utilities
  (src/bluefog/common/topology_util.py).

  Modelling conventions:
  * A topology (networkx DiGraph built via nx.from_numpy_array) is a square
    weight matrix over ranks 0..size-1.  An edge i -> j exists exactly when
    the matrix entry is nonzero, which is precisely how nx.from_numpy_array
    builds the digraph.  We represent it as a size together with a total
    weight function; only indices below size are meaningful.
  * Floating-point values are modelled by exact rationals.  All the weight
    arithmetic in the source is short sequences of divisions and sums of
    small integers, so the rational value is the ideal of the float value;
    row sums proved equal to 1 here are in particular within 1e-9.
  * Python generators are modelled as pure per-round functions of the round
    index; `Option`/`Except` results model the exceptions raised before a
    value is yielded.
-/

namespace Bluefog

/-- A weighted directed graph on ranks `0..size-1` (the `nx.DiGraph` built by
`nx.from_numpy_array`): entry `W i j` is the weight of edge `i -> j`, and the
edge exists iff the entry is nonzero. -/
structure Digraph where
  size : Nat
  W : Nat → Nat → ℚ

/-- Row sum of the weight matrix (over the actual columns `0..size-1`). -/
def rowSum (G : Digraph) (i : Nat) : ℚ := ∑ j ∈ Finset.range G.size, G.W i j

/-- Column sum of the weight matrix. -/
def colSum (G : Digraph) (j : Nat) : ℚ := ∑ i ∈ Finset.range G.size, G.W i j

/-- `topo.successors(i)` of the networkx digraph, in ascending rank order
(the order networkx reports them for a graph built from a matrix). -/
def successorsList (G : Digraph) (i : Nat) : List Nat :=
  (List.range G.size).filter (fun j => decide (G.W i j ≠ 0))

/-- `topo.predecessors(i)`, in ascending rank order. -/
def predecessorsList (G : Digraph) (i : Nat) : List Nat :=
  (List.range G.size).filter (fun j => decide (G.W j i ≠ 0))

/-- `topo.out_degree(i)`. -/
def outDegree (G : Digraph) (i : Nat) : Nat := (successorsList G i).length

/-- `topo.in_degree(i)`. -/
def inDegree (G : Digraph) (i : Nat) : Nat := (predecessorsList G i).length

/-- `topo.degree(i)` of a networkx DiGraph: in-degree plus out-degree
(a self-loop contributes once to each). -/
def nxDegree (G : Digraph) (i : Nat) : Nat := inDegree G i + outDegree G i

/-- `GetSendWeights(topo, rank)` (topology_util.py lines 53-63): iterate the
successors of `rank`; the self-loop entry becomes the self-weight (0.0 when
absent), every other successor `r` is recorded with weight `W[rank][r]`. -/
def GetSendWeights (G : Digraph) (rank : Nat) : ℚ × List (Nat × ℚ) :=
  let succs := successorsList G rank
  ((if rank ∈ succs then G.W rank rank else 0),
   (succs.filter (fun j => decide (j ≠ rank))).map (fun j => (j, G.W rank j)))

/-- `GetRecvWeights(topo, rank)` (topology_util.py lines 40-50): iterate the
predecessors of `rank`; the self-loop entry becomes the self-weight (0.0 when
absent), every other predecessor `s` is recorded with weight `W[s][rank]`. -/
def GetRecvWeights (G : Digraph) (rank : Nat) : ℚ × List (Nat × ℚ) :=
  let preds := predecessorsList G rank
  ((if rank ∈ preds then G.W rank rank else 0),
   (preds.filter (fun j => decide (j ≠ rank))).map (fun j => (j, G.W j rank)))

/-! ## Topology builders -/

/-- `isPowerOf(x, base)` (lines 90-96): `base ** int(math.log(x, base)) == x`.
`Nat.log` is the exact floor logarithm that `int(math.log(x, base))` computes
(the float round-trip is exact on every input reached by the claims). -/
def isPowerOf (x base : Nat) : Bool := decide (base ^ Nat.log base x = x)

/-- Circulant matrix built by the `np.roll` loop `topo[i] = np.roll(x, i)`:
entry `(i, j)` is `x[(j - i) mod size]`. -/
def circulant (n : Nat) (x : Nat → ℚ) : Digraph :=
  ⟨n, fun i j => x ((j + n - i % n) % n)⟩

/-- `x / x.sum()` normalisation of a nonneg pattern vector over `range n`. -/
def normVec (n : Nat) (c : Nat → ℚ) : Nat → ℚ :=
  fun j => c j / ∑ k ∈ Finset.range n, c k

/-- Pattern row of `PowerTwoRingGraph` (line 81): `1.0 if i & (i-1) == 0 else 0`.
For `i = 0` Python computes `0 & -1 == 0`, i.e. true, matching `Nat.land 0 0`. -/
def powerTwoC (i : Nat) : ℚ := if Nat.land i (i - 1) = 0 then 1 else 0

/-- `PowerTwoRingGraph(size)` weight matrix (lines 66-87). -/
def PowerTwoRingGraphW (size : Nat) : Digraph :=
  circulant size (normVec size powerTwoC)

/-- Pattern row of `PowerGraph` (lines 113-118): `x = [1.0]` then
`1.0 if isPowerOf(i, base) else 0.0` for `i = 1..size-1`. -/
def powerC (base : Nat) : Nat → ℚ :=
  fun i => if i = 0 then 1 else if isPowerOf i base then 1 else 0

/-- `PowerGraph(size, base)` weight matrix (lines 99-125). -/
def PowerGraphW (size base : Nat) : Digraph :=
  circulant size (normVec size (powerC base))

/-- Pattern row of `SymmetricPowerGraph` (lines 144-150): index `i` is folded
to `size - i` past the midpoint before the power test. -/
def symPowerC (size base : Nat) : Nat → ℚ :=
  fun i => if i = 0 then 1
    else if isPowerOf (if i ≤ size / 2 then i else size - i) base then 1 else 0

/-- `SymmetricPowerGraph(size, base)` weight matrix (lines 128-157). -/
def SymmetricPowerGraphW (size base : Nat) : Digraph :=
  circulant size (normVec size (symPowerC size base))

/-- `StarGraph(size, center_rank)` weight matrix (lines 230-236).  The loop
writes `topo[i,i] = 1 - 1/size`, `topo[center,i] = 1/size`,
`topo[i,center] = 1/size` in that order for every `i`; at `i = center` the
two later writes overwrite the diagonal cell, so the center's self-weight
ends up `1/size` while every other diagonal cell keeps `1 - 1/size`. -/
def StarGraphW (size center : Nat) : Digraph :=
  ⟨size, fun i j =>
    if i = center ∨ j = center then 1 / (size : ℚ)
    else if i = j then 1 - 1 / (size : ℚ) else 0⟩

/-- Pattern row of `RingGraph` for `size >= 3` (lines 264-275): `x[0] = 0.5`
then per connect style the writes `x[0]=x[-1]=x[1]=1/3` (style 0),
`x[-1]=0.5` (style 1) or `x[1]=0.5` (style 2). -/
def ringC (size style : Nat) : Nat → ℚ :=
  fun j =>
    if style = 0 then (if j = 0 ∨ j = 1 ∨ j = size - 1 then 1/3 else 0)
    else if style = 1 then (if j = 0 ∨ j = size - 1 then 1/2 else 0)
    else (if j = 0 ∨ j = 1 then 1/2 else 0)

/-- `RingGraph(size, connect_style)` weight matrix (lines 240-281), with the
dedicated `size = 1` and `size = 2` matrices returned early. -/
def RingGraphW (size style : Nat) : Digraph :=
  if size = 1 then ⟨1, fun _ _ => 1⟩
  else if size = 2 then ⟨2, fun _ _ => 1/2⟩
  else circulant size (ringC size style)

/-- `FullyConnectedGraph(size)` weight matrix (lines 284-303): every entry
`1/size`. -/
def FullyConnectedGraphW (size : Nat) : Digraph :=
  circulant size (fun _ => 1 / (size : ℚ))

/-- The `while size % i != 0: i -= 1` descent of `MeshGrid2DGraph`
(lines 184-186): the largest divisor of `size` that is at most `i`. -/
def largestDivisorLE (size : Nat) : Nat → Nat
  | 0 => 0
  | i + 1 => if size % (i + 1) = 0 then i + 1 else largestDivisorLE size i

/-- Number of rows of the default mesh shape: `int(np.sqrt(size))` stepped
down to the nearest divisor (`Nat.sqrt` is the floor square root that
`int(np.sqrt(size))` computes). -/
def meshRows (size : Nat) : Nat := largestDivisorLE size (Nat.sqrt size)

/-- Number of columns of the default mesh shape: `size // nrow`. -/
def meshCols (size : Nat) : Nat := size / meshRows size

/-- Adjacency (including the self-loop) laid down by the first loop of
`MeshGrid2DGraph` (lines 190-198): the diagonal, right neighbours within a
grid row (`(i+1) % ncol != 0`) and vertical neighbours (`i + ncol < size`),
all bidirectional. -/
def meshAdj (size ncol i j : Nat) : Bool :=
  decide (i = j) ||
  (decide (j = i + 1) && decide ((i + 1) % ncol ≠ 0)) ||
  (decide (i = j + 1) && decide ((j + 1) % ncol ≠ 0)) ||
  (decide (j = i + ncol) && decide (j < size)) ||
  (decide (i = j + ncol) && decide (i < size))

/-- Self-inclusive neighbour count `len(topo_neighbor_with_self[i])`
(line 203): the number of nonzero entries of row `i`. -/
def meshDeg (size ncol i : Nat) : Nat :=
  ((Finset.range size).filter (fun j => meshAdj size ncol i j = true)).card

/-- Metropolis-Hastings off-diagonal weight (lines 204-208):
`1 / max(deg(i), deg(j))` between distinct neighbours, 0 elsewhere. -/
def meshNbrW (size ncol i j : Nat) : ℚ :=
  if i ≠ j ∧ meshAdj size ncol i j then
    1 / (max (meshDeg size ncol i) (meshDeg size ncol j) : ℚ)
  else 0

/-- `MeshGrid2DGraph(size)` weight matrix (lines 160-211, default shape).
The diagonal write `topo[i][i] = 2.0 - topo[i].sum()` (line 209) happens when
the row still holds the original `1.0` at the diagonal plus the fresh
neighbour weights, so the final self-weight is `2 - (1 + sum of neighbour
weights)`. -/
def MeshGrid2DGraphW (size : Nat) : Digraph :=
  ⟨size, fun i j =>
    if i = j then
      2 - (1 + ∑ k ∈ Finset.range size, meshNbrW size (meshCols size) i k)
    else meshNbrW size (meshCols size) i j⟩

/-- Pre-normalisation entry of `InnerOuterRingGraph` (lines 331-340) written
with `M` machines of `n` ranks each: 1 within a machine, 1 to the matching
local rank on the next machine, 0 elsewhere. -/
def ioRingPre (M n i j : Nat) : ℚ :=
  if i / n = j / n then 1
  else if (i / n + 1) % M = j / n ∧ i % n = j % n then 1 else 0

/-- `InnerOuterRingGraph(world_size, local_size)` weight matrix (lines
306-344).  The normalisation `topo / topo.sum(axis=1)` broadcasts the row-sum
vector over rows, so entry `(i, j)` is divided by the sum of *row `j`* (all
row sums of the pre-matrix are equal, which makes this coincide with row
normalisation). -/
def InnerOuterRingGraphW (world_size local_size : Nat) : Digraph :=
  ⟨world_size, fun i j =>
    ioRingPre (world_size / local_size) local_size i j /
      ∑ k ∈ Finset.range world_size,
        ioRingPre (world_size / local_size) local_size j k⟩

/-- Pre-normalisation entry of `InnerOuterExp2Graph` (lines 372-382): 1
within a machine, 1 to the matching local rank on machines at circular
machine distance a power of two, 0 elsewhere.  `machine_dist` is
`(machine_j - machine_i) % M` with Python's nonnegative mod. -/
def ioExp2Pre (M n i j : Nat) : ℚ :=
  if i / n = j / n then 1
  else if isPowerOf ((j / n + M - i / n % M) % M) 2 ∧ i % n = j % n then 1
  else 0

/-- `InnerOuterExp2Graph(world_size, local_size)` weight matrix (lines
347-386), with the same broadcast normalisation as the ring variant. -/
def InnerOuterExp2GraphW (world_size local_size : Nat) : Digraph :=
  ⟨world_size, fun i j =>
    ioExp2Pre (world_size / local_size) local_size i j /
      ∑ k ∈ Finset.range world_size,
        ioExp2Pre (world_size / local_size) local_size j k⟩

/-! ## Builder argument validation

Each builder is split into the weight matrix above and the argument checks
below; a Python `assert`/exception before the matrix is built becomes an
`Except.error`. -/

/-- Failure modes of the builders. -/
inductive BuildErr where
  | invalidArgument : BuildErr
  | divisionByZero : BuildErr
deriving DecidableEq

/-- `RingGraph` entry point: `assert size > 0` (line 255) then
`assert 0 <= connect_style <= 2` (line 256). -/
def RingGraphE (size style : Nat) : Except BuildErr Digraph :=
  if size = 0 then .error .invalidArgument
  else if 2 < style then .error .invalidArgument
  else .ok (RingGraphW size style)

/-- `PowerTwoRingGraph` entry point: `assert size > 0` (line 80). -/
def PowerTwoRingGraphE (size : Nat) : Except BuildErr Digraph :=
  if size = 0 then .error .invalidArgument
  else .ok (PowerTwoRingGraphW size)

/-- `PowerGraph` entry point.  There is **no** size assertion (lines 99-125):
`PowerGraph(0)` builds a 0-node graph.  The only failure is the
`isPowerOf` assertion `base > 1`, reached exactly when `size >= 2`. -/
def PowerGraphE (size base : Nat) : Except BuildErr Digraph :=
  if 2 ≤ size ∧ base ≤ 1 then .error .invalidArgument
  else .ok (PowerGraphW size base)

/-- `SymmetricPowerGraph` entry point: same situation as `PowerGraph`
(lines 128-157, no size assertion). -/
def SymmetricPowerGraphE (size base : Nat) : Except BuildErr Digraph :=
  if 2 ≤ size ∧ base ≤ 1 then .error .invalidArgument
  else .ok (SymmetricPowerGraphW size base)

/-- `MeshGrid2DGraph` entry point with default shape: `assert size > 0`
(line 182). -/
def MeshGrid2DGraphE (size : Nat) : Except BuildErr Digraph :=
  if size = 0 then .error .invalidArgument
  else .ok (MeshGrid2DGraphW size)

/-- `StarGraph` entry point: `assert size > 0` (line 230). -/
def StarGraphE (size center : Nat) : Except BuildErr Digraph :=
  if size = 0 then .error .invalidArgument
  else .ok (StarGraphW size center)

/-- `FullyConnectedGraph` entry point: `assert size > 0` (line 297). -/
def FullyConnectedGraphE (size : Nat) : Except BuildErr Digraph :=
  if size = 0 then .error .invalidArgument
  else .ok (FullyConnectedGraphW size)

/-- `InnerOuterRingGraph` entry point (lines 324-327): `world_size //
local_size` raises `ZeroDivisionError` when `local_size = 0`, then
`assert world_size % local_size == 0`.  No positivity check on
`world_size`. -/
def InnerOuterRingGraphE (world_size local_size : Nat) : Except BuildErr Digraph :=
  if local_size = 0 then .error .divisionByZero
  else if world_size % local_size ≠ 0 then .error .invalidArgument
  else .ok (InnerOuterRingGraphW world_size local_size)

/-- `InnerOuterExp2Graph` entry point (lines 365-368): same checks as the
ring variant. -/
def InnerOuterExp2GraphE (world_size local_size : Nat) : Except BuildErr Digraph :=
  if local_size = 0 then .error .divisionByZero
  else if world_size % local_size ≠ 0 then .error .invalidArgument
  else .ok (InnerOuterExp2GraphW world_size local_size)

/-- The topologies produced by a builder invoked with valid arguments
(positive size, connect style in range, integer base above 1, valid center,
positive local size dividing the world size). -/
inductive Built : Digraph → Prop where
  | ring (size style : Nat) (hs : 1 ≤ size) (hst : style ≤ 2) :
      Built (RingGraphW size style)
  | powerTwoRing (size : Nat) (hs : 1 ≤ size) : Built (PowerTwoRingGraphW size)
  | power (size base : Nat) (hs : 1 ≤ size) (hb : 2 ≤ base) :
      Built (PowerGraphW size base)
  | symmetricPower (size base : Nat) (hs : 1 ≤ size) (hb : 2 ≤ base) :
      Built (SymmetricPowerGraphW size base)
  | meshGrid (size : Nat) (hs : 1 ≤ size) : Built (MeshGrid2DGraphW size)
  | star (size center : Nat) (hs : 1 ≤ size) (hc : center < size) :
      Built (StarGraphW size center)
  | fullyConnected (size : Nat) (hs : 1 ≤ size) : Built (FullyConnectedGraphW size)
  | innerOuterRing (world_size local_size : Nat) (hl : 1 ≤ local_size)
      (hw : 1 ≤ world_size) (hdvd : world_size % local_size = 0) :
      Built (InnerOuterRingGraphW world_size local_size)
  | innerOuterExp2 (world_size local_size : Nat) (hl : 1 ≤ local_size)
      (hw : 1 ≤ world_size) (hdvd : world_size % local_size = 0) :
      Built (InnerOuterExp2GraphW world_size local_size)

/-! ## Validator -/

/-- `IsRegularGraph(topo)` (lines 389-395): compares `topo.degree(rank)` —
the networkx *total* degree, in-degree plus out-degree — of every rank
`1..size-1` against rank 0's. -/
def IsRegularGraph (G : Digraph) : Bool :=
  ((List.range G.size).drop 1).all (fun r => decide (nxDegree G r = nxDegree G 0))

/-! ## Dynamic scheduler (`GetDynamicSendRecvRanks`, lines 398-440) -/

/-- The clockwise sort key of line 422: `r - rk if r >= rk else r - rk + size`,
i.e. the circular distance from `rk` to `r`. -/
def clockKey (size rk r : Nat) : Nat := (r + size - rk % size) % size

/-- `sorted_send_ranks[rank]` (lines 419-425): the successors of `rank`
sorted by clockwise distance, with the self-loop (necessarily the head, as
its key 0 is the strict minimum) removed when present.  On an empty
successor list the source raises `IndexError` at `sorted_ranks[0]`; that
situation is covered by the `none` case of `dynamicRound` below. -/
def sortedSendRanks (G : Digraph) (rank : Nat) : List Nat :=
  match List.insertionSort
      (fun a b => clockKey G.size rank a ≤ clockKey G.size rank b)
      (successorsList G rank) with
  | [] => []
  | r :: rest => if r = rank then rest else r :: rest

/-- `self_degree = topo.out_degree(self_rank) - 1` (line 427). -/
def selfDegree (G : Digraph) (rank : Nat) : Nat := outDegree G rank - 1

/-- The send target `sorted_send_ranks[rank][index % self_degree]`
(line 430 for the caller, line 436 for the other ranks). -/
def dynamicSend (G : Digraph) (rank index : Nat) : Nat :=
  (sortedSendRanks G rank).getD (index % selfDegree G rank) 0

/-- One round of the `GetDynamicSendRecvRanks` generator (lines 429-440) as a
pure function of the round index.  `none` models the exceptions raised before
the `yield`: `index % self_degree` raises `ZeroDivisionError` when the
caller's `self_degree` is 0, the receive loop raises it when any other rank's
`self_degree` is 0, and a rank with no successors at all already raises
`IndexError` in the precomputation (its `self_degree` is 0 as well). -/
def dynamicRound (G : Digraph) (self_rank index : Nat) :
    Option (List Nat × List Nat) :=
  if selfDegree G self_rank = 0 then none
  else if (List.range G.size).all
      (fun o => decide (o = self_rank) || decide (selfDegree G o ≠ 0)) then
    some ([dynamicSend G self_rank index],
      (List.range G.size).filter
        (fun o => decide (o ≠ self_rank) && decide (dynamicSend G o index = self_rank)))
  else none

/-! ## Hierarchical dynamic schedulers (lines 443-592) -/

/-- Failure modes of the hierarchical schedulers, raised before any pair is
yielded. -/
inductive SchedErr where
  | divisionByZero : SchedErr
  | invalidArgument : SchedErr
  | unsupported : SchedErr
  | numericalRange : SchedErr
deriving DecidableEq

/-- Validation prelude of `GetInnerOuterRingDynamicSendRecvRanks` (lines
465-468), in source order: `world_size // local_size` raises
`ZeroDivisionError` for `local_size = 0`; `assert world_size % local_size ==
0` is the InvalidArgument failure; `assert nodes_per_machine > 2` is the
Unsupported failure.  The self rank plays no role in validation. -/
def innerOuterRingCheck (world_size local_size : Nat) : Except SchedErr Unit :=
  if local_size = 0 then .error .divisionByZero
  else if world_size % local_size ≠ 0 then .error .invalidArgument
  else if ¬ 2 < local_size then .error .unsupported
  else .ok ()

/-- Validation prelude of `GetInnerOuterExp2DynamicSendRecvRanks` (lines
535-540): the same three checks in the same order, followed by
`int(np.log2(num_machines - 1))`, which raises for fewer than two machines
(`log2` of 0 or of a negative number). -/
def innerOuterExp2Check (world_size local_size : Nat) : Except SchedErr Unit :=
  if local_size = 0 then .error .divisionByZero
  else if world_size % local_size ≠ 0 then .error .invalidArgument
  else if ¬ 2 < local_size then .error .unsupported
  else if world_size / local_size ≤ 1 then .error .numericalRange
  else .ok ()

/-- One round of `GetInnerOuterRingDynamicSendRecvRanks` (lines 470-510) as a
pure function `(send_rank, recv_rank)` of the round index.  Python's
`(machine_id - 1) % num_machines` and `(local - 1) % n` on possibly negative
operands are written with the usual `+ modulus - value` form, equal for the
argument ranges the generator can reach. -/
def innerOuterRingRound (world_size local_size self_rank index : Nat) : Nat × Nat :=
  let num_machines := world_size / local_size
  let n := local_size
  let machine_id := self_rank / n
  let local_rank_id := self_rank % n
  let outside_id := index % n
  if outside_id = local_rank_id then
    (((machine_id + 1) % num_machines) * n + local_rank_id,
     ((machine_id + num_machines - 1) % num_machines) * n + local_rank_id)
  else
    let t0 := (local_rank_id + 1) % n
    let t := if t0 = outside_id then (t0 + 1) % n else t0
    let s0 := (local_rank_id + n - 1) % n
    let s := if s0 = outside_id then (s0 + n - 1) % n else s0
    (t + machine_id * n, s + machine_id * n)

/-- One round of `GetInnerOuterExp2DynamicSendRecvRanks` (lines 542-592).
`exp_2_out_size = int(np.log2(num_machines - 1))` and `exp_2_in_size =
int(np.log2(nodes_per_machine - 2))` are the floor logarithms `Nat.log 2`;
both are computed once before the loop in the source.  (For a single
machine the source raises while computing `exp_2_out_size`; that case is
rejected by `innerOuterExp2Check`.) -/
def innerOuterExp2Round (world_size local_size self_rank index : Nat) : Nat × Nat :=
  let num_machines := world_size / local_size
  let n := local_size
  let exp2out := Nat.log 2 (num_machines - 1)
  let exp2in := Nat.log 2 (n - 2)
  let machine_id := self_rank / n
  let local_rank_id := self_rank % n
  let outside_id := index % n
  if outside_id = local_rank_id then
    let next_machine_dist := 2 ^ (index % (exp2out + 1))
    (((machine_id + next_machine_dist) % num_machines) * n + local_rank_id,
     ((machine_id + num_machines - next_machine_dist % num_machines) % num_machines) * n
       + local_rank_id)
  else
    let dist_to_out := (outside_id + n - local_rank_id) % n
    let d0 := 2 ^ (index % (exp2in + 1))
    let next_inner_dist := if dist_to_out ≤ d0 then d0 + 1 else d0
    let target_local := (local_rank_id + next_inner_dist) % n
    let reverse_dist_to_out := (local_rank_id + n - outside_id) % n
    let r0 := 2 ^ (index % (exp2in + 1))
    let reverse_inner_dist := if reverse_dist_to_out ≤ r0 then r0 + 1 else r0
    let source_local := (local_rank_id + n - reverse_inner_dist % n) % n
    (target_local + machine_id * n, source_local + machine_id * n)

/-- A two-node digraph with the single edge `0 -> 1`: every node has total
degree 1, but the out-degrees differ. -/
def irregularExample : Digraph :=
  ⟨2, fun i j => if i = 0 ∧ j = 1 then 1 else 0⟩

/-! ## General helper lemmas -/

theorem mod_small_cases (a n : Nat) (hn : 0 < n) (h : a < 2 * n) :
    a % n = if a < n then a else a - n := by
  split_ifs with hlt
  · exact Nat.mod_eq_of_lt hlt
  · rw [Nat.mod_eq_sub_mod (Nat.le_of_not_lt hlt)]
    exact Nat.mod_eq_of_lt (by omega)

theorem mem_range_drop_one (n a : Nat) :
    a ∈ (List.range n).drop 1 ↔ 1 ≤ a ∧ a < n := by
  cases n with
  | zero => simp
  | succ m =>
    rw [List.range_succ_eq_map]
    simp only [List.drop_succ_cons, List.drop_zero, List.mem_map, List.mem_range]
    constructor
    · rintro ⟨b, hb, rfl⟩; omega
    · rintro ⟨h1, h2⟩; exact ⟨a - 1, by omega, by omega⟩

theorem list_range_map_sum (n : Nat) (f : Nat → ℚ) :
    ((List.range n).map f).sum = ∑ j ∈ Finset.range n, f j := by
  induction n with
  | zero => simp
  | succ m ih => rw [List.range_succ, Finset.sum_range_succ, List.map_append]; simp [ih]

/-! ## C5: star graph weights -/

/-- **C5 (counterexample):** `StarGraph(size=5, center_rank=0)` gives node 0
the self-weight `1/5`, not `1 - 1/5 = 0.8`: the writes `topo[center_rank, i]
= 1/size` and `topo[i, center_rank] = 1/size` of the loop iteration
`i = center_rank` overwrite the earlier `topo[i, i] = 1 - 1/size`. -/
theorem starGraph_center_self_weight_cex :
    (StarGraphW 5 0).W 0 0 = 1/5 ∧ ¬ (StarGraphW 5 0).W 0 0 = 1 - 1/5 := by
  constructor
  · norm_num [StarGraphW]
  · norm_num [StarGraphW]

/-- **C5 (amended):** in `StarGraph(size, center_rank)` every leaf keeps
self-weight `1 - 1/size` and shares weight `1/size` with the center in both
directions, but the center's own self-weight is `1/size` (its diagonal write
is overwritten), not `1 - 1/size`. -/
theorem starGraph_weights (size center i : Nat) (hc : center < size)
    (hi : i < size) (hne : i ≠ center) :
    (StarGraphW size center).W center center = 1 / (size : ℚ) ∧
    (StarGraphW size center).W i i = 1 - 1 / (size : ℚ) ∧
    (StarGraphW size center).W center i = 1 / (size : ℚ) ∧
    (StarGraphW size center).W i center = 1 / (size : ℚ) := by
  refine ⟨by simp [StarGraphW], ?_, by simp [StarGraphW], by simp [StarGraphW]⟩
  simp [StarGraphW, hne]

/-- Witness for `starGraph_weights` at `StarGraph(5, 0)`, leaf 2. -/
theorem starGraph_weights_witness :
    (StarGraphW 5 0).W 0 0 = 1 / (5 : ℚ) ∧
    (StarGraphW 5 0).W 2 2 = 1 - 1 / (5 : ℚ) ∧
    (StarGraphW 5 0).W 0 2 = 1 / (5 : ℚ) ∧
    (StarGraphW 5 0).W 2 0 = 1 / (5 : ℚ) :=
  starGraph_weights 5 0 2 (by decide) (by decide) (by decide)

/-! ## C6: IsRegularGraph compares total degrees, not out-degrees -/

/-- **C6 (counterexample):** on the two-node digraph with the single edge
`0 -> 1`, `IsRegularGraph` returns true although the out-degrees of the two
nodes differ (1 versus 0): `topo.degree` is the total degree. -/
theorem isRegularGraph_out_degree_cex :
    IsRegularGraph irregularExample = true ∧
    ¬ outDegree irregularExample 1 = outDegree irregularExample 0 := by
  constructor
  · decide
  · decide

/-- **C6 (amended):** `IsRegularGraph(topology)` returns true iff every node
has the same networkx *total* degree (in-degree plus out-degree) as node 0;
it does not compare out-degrees. -/
theorem isRegularGraph_iff_total_degree (G : Digraph) :
    IsRegularGraph G = true ↔ ∀ r, r < G.size → nxDegree G r = nxDegree G 0 := by
  unfold IsRegularGraph
  rw [List.all_eq_true]
  constructor
  · intro h r hr
    rcases Nat.eq_zero_or_pos r with rfl | hpos
    · rfl
    · have := h r ((mem_range_drop_one G.size r).2 ⟨hpos, hr⟩)
      exact of_decide_eq_true this
  · intro h x hx
    exact decide_eq_true (h x ((mem_range_drop_one G.size x).1 hx).2)

/-! ## C7: not every builder rejects size 0 -/

/-- **C7 (counterexample):** `PowerGraph(0)` does not fail: it has no size
assertion and returns a 0-node topology. -/
theorem powerGraph_size_zero_cex :
    PowerGraphE 0 2 = Except.ok (PowerGraphW 0 2) := by
  simp [PowerGraphE]

/-- **C7 (amended):** the builders that assert `size > 0` (`RingGraph`,
`PowerTwoRingGraph`, `MeshGrid2DGraph`, `StarGraph`, `FullyConnectedGraph`)
fail with InvalidArgument on `size = 0`, but `PowerGraph` and
`SymmetricPowerGraph` have no size assertion and return an (empty) topology
for `size = 0` — their only failure is an invalid base, reached when
`size ≥ 2` — and the inner-outer builders likewise accept `world_size = 0`. -/
theorem builders_size_zero_behaviour (style base center loc : Nat) :
    RingGraphE 0 style = Except.error BuildErr.invalidArgument ∧
    PowerTwoRingGraphE 0 = Except.error BuildErr.invalidArgument ∧
    MeshGrid2DGraphE 0 = Except.error BuildErr.invalidArgument ∧
    StarGraphE 0 center = Except.error BuildErr.invalidArgument ∧
    FullyConnectedGraphE 0 = Except.error BuildErr.invalidArgument ∧
    PowerGraphE 0 base = Except.ok (PowerGraphW 0 base) ∧
    SymmetricPowerGraphE 0 base = Except.ok (SymmetricPowerGraphW 0 base) ∧
    InnerOuterRingGraphE 0 (loc + 1) = Except.ok (InnerOuterRingGraphW 0 (loc + 1)) ∧
    InnerOuterExp2GraphE 0 (loc + 1) = Except.ok (InnerOuterExp2GraphW 0 (loc + 1)) := by
  refine ⟨rfl, rfl, rfl, rfl, rfl, ?_, ?_, ?_, ?_⟩
  · simp [PowerGraphE]
  · simp [SymmetricPowerGraphE]
  · simp [InnerOuterRingGraphE]
  · simp [InnerOuterExp2GraphE]

/-! ## C9: how the hierarchical schedulers reject small local sizes -/

/-- **C9 (counterexample):** `GetInnerOuterExp2DynamicSendRecvRanks` with
`world_size = 5, local_size = 2` fails with the divisibility assertion
(InvalidArgument), which precedes the `local_size > 2` assertion — not with
Unsupported as the claim states for *every* world size. -/
theorem exp2Check_local_two_not_unsupported :
    innerOuterExp2Check 5 2 = Except.error SchedErr.invalidArgument ∧
    ¬ innerOuterExp2Check 5 2 = Except.error SchedErr.unsupported := by
  constructor
  · rfl
  · intro h
    rw [show innerOuterExp2Check 5 2 = Except.error SchedErr.invalidArgument from rfl] at h
    simp at h

/-- **C9 (amended):** with `local_size ≤ 2` neither hierarchical scheduler
ever yields a pair — validation fails before the loop — and the failure is
`Unsupported` exactly when `local_size` is 1 or 2 and divides `world_size`;
when `world_size % local_size ≠ 0` the divisibility assertion fires first
(InvalidArgument), and `local_size = 0` raises a division error. -/
theorem innerOuter_small_local_never_yields (world loc : Nat) (hle : loc ≤ 2) :
    ¬ innerOuterRingCheck world loc = Except.ok () ∧
    ¬ innerOuterExp2Check world loc = Except.ok () ∧
    (loc ≠ 0 → world % loc = 0 →
      innerOuterRingCheck world loc = Except.error SchedErr.unsupported ∧
      innerOuterExp2Check world loc = Except.error SchedErr.unsupported) := by
  interval_cases loc
  · exact ⟨by simp [innerOuterRingCheck], by simp [innerOuterExp2Check],
      fun h _ => absurd rfl h⟩
  · refine ⟨?_, ?_, fun _ _ => ⟨?_, ?_⟩⟩ <;>
      simp [innerOuterRingCheck, innerOuterExp2Check, Nat.mod_one]
  · rcases Nat.eq_zero_or_pos (world % 2) with hz | hpos
    · refine ⟨?_, ?_, fun _ _ => ⟨?_, ?_⟩⟩ <;>
        simp [innerOuterRingCheck, innerOuterExp2Check, hz]
    · have hz : ¬ world % 2 = 0 := by omega
      refine ⟨?_, ?_, fun _ h => absurd h hz⟩ <;>
        simp [innerOuterRingCheck, innerOuterExp2Check, hz]

/-- Witness for `innerOuter_small_local_never_yields` at
`world_size = 4, local_size = 2`. -/
theorem innerOuter_small_local_never_yields_witness :
    ¬ innerOuterRingCheck 4 2 = Except.ok () ∧
    ¬ innerOuterExp2Check 4 2 = Except.ok () ∧
    ((2 : Nat) ≠ 0 → 4 % 2 = 0 →
      innerOuterRingCheck 4 2 = Except.error SchedErr.unsupported ∧
      innerOuterExp2Check 4 2 = Except.error SchedErr.unsupported) :=
  innerOuter_small_local_never_yields 4 2 (by decide)

/-! ## C1: send/recv symmetry of the dynamic scheduler -/

theorem mem_successorsList (G : Digraph) (i j : Nat) :
    j ∈ successorsList G i ↔ j < G.size ∧ G.W i j ≠ 0 := by
  simp [successorsList, List.mem_filter, List.mem_range]

theorem successorsList_nodup (G : Digraph) (i : Nat) :
    (successorsList G i).Nodup :=
  (List.nodup_range G.size).filter _

/-- **C1 (confirmed):** on any topology on which the scheduler yields at all,
rank `o ≠ r` appears in the `recv_ranks` yielded to rank `r` at round `t`
iff the `send_ranks` yielded to rank `o` at that round is exactly `[r]`:
the receive set is computed (line 436) by evaluating every other rank's send
rule re-using the same `sorted_send_ranks` table. -/
theorem dynamicSendRecv_symmetry (G : Digraph) (r o t : Nat)
    (ho : o < G.size) (hno : o ≠ r) (sr rr so ro : List Nat)
    (hr : dynamicRound G r t = some (sr, rr))
    (hoR : dynamicRound G o t = some (so, ro)) :
    o ∈ rr ↔ so = [r] := by
  unfold dynamicRound at hr hoR
  split_ifs at hr hoR with h1 h2 h3 h4
  simp only [Option.some.injEq, Prod.mk.injEq] at hr hoR
  obtain ⟨-, hrr⟩ := hr
  obtain ⟨hso, -⟩ := hoR
  rw [← hrr, ← hso]
  simp [List.mem_filter, List.mem_range, ho, hno]

/-- Witness for `dynamicSendRecv_symmetry`: on `RingGraph(4)` at round 0,
rank 3 is the unique receive source of rank 0 and sends exactly to rank 0. -/
theorem dynamicSendRecv_symmetry_witness :
    (3 : Nat) ∈ ([3] : List Nat) ↔ ([0] : List Nat) = [0] :=
  dynamicSendRecv_symmetry (RingGraphW 4 0) 0 3 0 (by decide) (by decide)
    [1] [3] [0] [2]
    (by norm_num [dynamicRound, dynamicSend, sortedSendRanks, successorsList, selfDegree,
      outDegree, RingGraphW, circulant, ringC, List.range, List.range.loop, List.filter,
      List.insertionSort, List.orderedInsert, clockKey])
    (by norm_num [dynamicRound, dynamicSend, sortedSendRanks, successorsList, selfDegree,
      outDegree, RingGraphW, circulant, ringC, List.range, List.range.loop, List.filter,
      List.insertionSort, List.orderedInsert, clockKey])

/-! ## C10: the scheduler fails without a non-self out-neighbour -/

/-- **C10 (confirmed):** on `RingGraph(1)`, whose single rank has only the
self-loop, the very first request to `GetDynamicSendRecvRanks` fails
(`index % self_degree` divides by `self_degree = out_degree - 1 = 0`) instead
of yielding; and whenever a round is yielded at all, every rank of the
topology must have at least one non-self successor. -/
theorem dynamicRound_needs_nonself_successor :
    dynamicRound (RingGraphW 1 0) 0 0 = none ∧
    ∀ (G : Digraph) (r t : Nat), (dynamicRound G r t).isSome = true →
      ∀ o, o < G.size → ∃ j, j < G.size ∧ j ≠ o ∧ G.W o j ≠ 0 := by
  constructor
  · norm_num [dynamicRound, selfDegree, outDegree, successorsList, RingGraphW,
      List.range, List.range.loop, List.filter]
  · intro G r t h o ho
    have key : ∀ q, selfDegree G q ≠ 0 → ∃ j, j < G.size ∧ j ≠ q ∧ G.W q j ≠ 0 := by
      intro q hq
      have hlen : 2 ≤ (successorsList G q).length := by
        have : outDegree G q - 1 ≠ 0 := hq
        unfold outDegree at this
        omega
      have hnd := successorsList_nodup G q
      rcases hl : successorsList G q with - | ⟨a, - | ⟨b, rest⟩⟩
      · rw [hl] at hlen; simp at hlen
      · rw [hl] at hlen; simp at hlen
      · rw [hl] at hnd
        have hab : a ≠ b := by
          intro he
          exact (List.nodup_cons.mp hnd).1 (he ▸ List.mem_cons_self b rest)
      -- pick whichever of the two leading successors differs from q
        by_cases haq : a = q
        · refine ⟨b, ?_⟩
          have hb : b ∈ successorsList G q := by rw [hl]; simp
          rw [mem_successorsList] at hb
          exact ⟨hb.1, by
            intro hbq
            exact hab (haq.trans hbq.symm), hb.2⟩
        · refine ⟨a, ?_⟩
          have ha : a ∈ successorsList G q := by rw [hl]; simp
          rw [mem_successorsList] at ha
          exact ⟨ha.1, haq, ha.2⟩
    unfold dynamicRound at h
    split_ifs at h with h1 h2
    · simp at h
    · by_cases hor : o = r
      · exact hor ▸ key r h1
      · have := List.all_eq_true.1 h2 o (List.mem_range.2 ho)
        simp only [Bool.or_eq_true, decide_eq_true_eq] at this
        rcases this with h | h
        · exact absurd h hor
        · exact key o h
    · simp at h

/-! ## C2: the send rotation enumerates the clockwise-sorted neighbours -/

theorem clockKey_self (n r : Nat) (hr : r < n) : clockKey n r r = 0 := by
  unfold clockKey
  rw [Nat.mod_eq_of_lt hr]
  have h : r + n - r = n := by omega
  rw [h, Nat.mod_self]

theorem clockKey_injOn (n r a b : Nat) (hr : r < n) (ha : a < n) (hb : b < n)
    (h : clockKey n r a = clockKey n r b) : a = b := by
  unfold clockKey at h
  rw [Nat.mod_eq_of_lt hr,
    mod_small_cases (a + n - r) n (by omega) (by omega),
    mod_small_cases (b + n - r) n (by omega) (by omega)] at h
  split_ifs at h <;> omega

/-- The shape of `sorted_send_ranks[rank]` when `rank` has a self-loop:
its members are exactly the non-self out-neighbours, without duplicates, in
strictly increasing clockwise order, and its length is `self_degree`. -/
theorem sortedSendRanks_spec (G : Digraph) (r : Nat) (hr : r < G.size)
    (hself : G.W r r ≠ 0) :
    (∀ j, j ∈ sortedSendRanks G r ↔ j < G.size ∧ j ≠ r ∧ G.W r j ≠ 0) ∧
    (sortedSendRanks G r).Nodup ∧
    (sortedSendRanks G r).Pairwise
      (fun a b => clockKey G.size r a < clockKey G.size r b) ∧
    (sortedSendRanks G r).length = selfDegree G r := by
  haveI hto : IsTotal Nat (fun a b => clockKey G.size r a ≤ clockKey G.size r b) :=
    ⟨fun a b => Nat.le_total _ _⟩
  haveI htr : IsTrans Nat (fun a b => clockKey G.size r a ≤ clockKey G.size r b) :=
    ⟨fun a b c hab hbc => Nat.le_trans hab hbc⟩
  have hperm := List.perm_insertionSort
    (fun a b => clockKey G.size r a ≤ clockKey G.size r b) (successorsList G r)
  have hsorted := List.sorted_insertionSort
    (fun a b => clockKey G.size r a ≤ clockKey G.size r b) (successorsList G r)
  have hmem : ∀ j, j ∈ List.insertionSort
      (fun a b => clockKey G.size r a ≤ clockKey G.size r b) (successorsList G r) ↔
      j < G.size ∧ G.W r j ≠ 0 := by
    intro j
    rw [hperm.mem_iff, mem_successorsList]
  have hnd : (List.insertionSort
      (fun a b => clockKey G.size r a ≤ clockKey G.size r b)
      (successorsList G r)).Nodup :=
    hperm.nodup_iff.2 (successorsList_nodup G r)
  have hlen : (List.insertionSort
      (fun a b => clockKey G.size r a ≤ clockKey G.size r b)
      (successorsList G r)).length = outDegree G r :=
    hperm.length_eq
  rcases hS : List.insertionSort
      (fun a b => clockKey G.size r a ≤ clockKey G.size r b)
      (successorsList G r) with - | ⟨h, tail⟩
  · exact absurd ((hmem r).2 ⟨hr, hself⟩) (by rw [hS]; simp)
  · rw [hS] at hmem hnd hsorted hlen
    have hhr : h = r := by
      have hrmem : r ∈ h :: tail := (hmem r).2 ⟨hr, hself⟩
      rcases List.mem_cons.mp hrmem with he | htl
      · exact he.symm
      · have hle : clockKey G.size r h ≤ clockKey G.size r r :=
          (List.pairwise_cons.mp hsorted).1 r htl
      -- the self-loop has the unique minimal clock key 0
        have hh : h < G.size := ((hmem h).1 (by simp)).1
        rw [clockKey_self G.size r hr] at hle
        exact clockKey_injOn G.size r h r hr hh hr
          (by rw [clockKey_self G.size r hr]; omega)
    have htail : sortedSendRanks G r = tail := by
      unfold sortedSendRanks
      rw [hS]
      simp [hhr]
    rw [htail]
    have hnotmem : r ∉ tail := hhr ▸ (List.nodup_cons.mp hnd).1
    refine ⟨?_, (List.nodup_cons.mp hnd).2, ?_, ?_⟩
    · intro j
      constructor
      · intro hj
        have hjS := (hmem j).1 (List.mem_cons_of_mem h hj)
        exact ⟨hjS.1, fun he => hnotmem (he ▸ hj), hjS.2⟩
      · rintro ⟨hj1, hj2, hj3⟩
        rcases List.mem_cons.mp ((hmem j).2 ⟨hj1, hj3⟩) with he | htl
        · exact absurd (he.trans hhr) hj2
        · exact htl
    · have hst : tail.Pairwise
          (fun a b => clockKey G.size r a ≤ clockKey G.size r b) :=
        (List.pairwise_cons.mp hsorted).2
      have hnds : tail.Pairwise (fun a b : Nat => a ≠ b) := (List.nodup_cons.mp hnd).2
      refine (hst.and hnds).imp_of_mem ?_
      intro a b hma hmb hab
      have ha : a < G.size := ((hmem a).1 (List.mem_cons_of_mem h hma)).1
      have hb : b < G.size := ((hmem b).1 (List.mem_cons_of_mem h hmb)).1
      rcases Nat.lt_or_ge (clockKey G.size r a) (clockKey G.size r b) with hlt | hge
      · exact hlt
      · exact absurd (clockKey_injOn G.size r a b hr ha hb (by omega)) hab.2
    · have : tail.length + 1 = outDegree G r := by simpa using hlen
      unfold selfDegree
      omega

/-- **C2 (confirmed):** for a rank with a self-loop and at least one other
out-neighbour, the send targets of rounds `0 .. self_degree - 1` are exactly
`sorted_send_ranks[rank]`: every non-self out-neighbour exactly once (no
duplicates), in strictly increasing clockwise circular distance from the
rank, and the rotation then repeats with period `self_degree` (the spec's
`out_degree` counts successors without the self-loop, as in §4.4). -/
theorem dynamicSend_cycle (G : Digraph) (r : Nat) (hr : r < G.size)
    (hself : G.W r r ≠ 0) (hd : selfDegree G r ≠ 0) :
    (List.range (selfDegree G r)).map (fun t => dynamicSend G r t)
        = sortedSendRanks G r ∧
    (∀ j, j ∈ sortedSendRanks G r ↔ j < G.size ∧ j ≠ r ∧ G.W r j ≠ 0) ∧
    (sortedSendRanks G r).Nodup ∧
    (sortedSendRanks G r).Pairwise
      (fun a b => clockKey G.size r a < clockKey G.size r b) ∧
    (∀ t, dynamicSend G r (t + selfDegree G r) = dynamicSend G r t) := by
  obtain ⟨hmem, hnd, hpw, hlen⟩ := sortedSendRanks_spec G r hr hself
  refine ⟨?_, hmem, hnd, hpw, ?_⟩
  · apply List.ext_getElem (by simp [hlen])
    intro n h1 h2
    rw [List.getElem_map, List.getElem_range]
    unfold dynamicSend
    have hn : n < selfDegree G r := by simpa using h1
    rw [Nat.mod_eq_of_lt hn, List.getD_eq_getElem _ _ (by omega)]
  · intro t
    unfold dynamicSend
    rw [Nat.add_mod_right]

/-- Witness for `dynamicSend_cycle` on `RingGraph(4)`, rank 0: the two
rounds of the cycle send to 1 then 3. -/
theorem dynamicSend_cycle_witness :
    (List.range (selfDegree (RingGraphW 4 0) 0)).map
        (fun t => dynamicSend (RingGraphW 4 0) 0 t)
        = sortedSendRanks (RingGraphW 4 0) 0 ∧
    (∀ j, j ∈ sortedSendRanks (RingGraphW 4 0) 0 ↔
      j < (RingGraphW 4 0).size ∧ j ≠ 0 ∧ (RingGraphW 4 0).W 0 j ≠ 0) ∧
    (sortedSendRanks (RingGraphW 4 0) 0).Nodup ∧
    (sortedSendRanks (RingGraphW 4 0) 0).Pairwise
      (fun a b => clockKey (RingGraphW 4 0).size 0 a < clockKey (RingGraphW 4 0).size 0 b) ∧
    (∀ t, dynamicSend (RingGraphW 4 0) 0 (t + selfDegree (RingGraphW 4 0) 0)
      = dynamicSend (RingGraphW 4 0) 0 t) :=
  dynamicSend_cycle (RingGraphW 4 0) 0 (by norm_num [RingGraphW, circulant])
    (by norm_num [RingGraphW, circulant, ringC])
    (by norm_num [selfDegree, outDegree, successorsList, RingGraphW, circulant, ringC,
      List.range, List.range.loop, List.filter])

/-! ## C8: inner rounds of the hierarchical schedulers stay on-machine -/

theorem localToGlobal_div (t m n : Nat) (hn : 0 < n) (ht : t < n) :
    (t + m * n) / n = m := by
  rw [Nat.add_mul_div_right t m hn, Nat.div_eq_of_lt ht]
  omega

theorem localToGlobal_ne (t u m n : Nat) (ht : t ≠ u) :
    t + m * n ≠ u + m * n :=
  fun h => ht (Nat.add_right_cancel h)

/-- Inner rounds of the ring hierarchical scheduler: when the caller is not
the designated outside rank, both the send and the receive target are in the
caller's machine, differ from the machine's designated outside rank, and
differ from the caller. -/
theorem innerOuterRingRound_inner (world_size local_size rank index : Nat)
    (hn : 2 < local_size) (hout : index % local_size ≠ rank % local_size) :
    ((innerOuterRingRound world_size local_size rank index).1 / local_size
        = rank / local_size ∧
      (innerOuterRingRound world_size local_size rank index).1
        ≠ rank / local_size * local_size + index % local_size ∧
      (innerOuterRingRound world_size local_size rank index).1 ≠ rank) ∧
    ((innerOuterRingRound world_size local_size rank index).2 / local_size
        = rank / local_size ∧
      (innerOuterRingRound world_size local_size rank index).2
        ≠ rank / local_size * local_size + index % local_size ∧
      (innerOuterRingRound world_size local_size rank index).2 ≠ rank) := by
  have hn0 : 0 < local_size := by omega
  have hl : rank % local_size < local_size := Nat.mod_lt _ hn0
  have houtlt : index % local_size < local_size := Nat.mod_lt _ hn0
  have hround : innerOuterRingRound world_size local_size rank index =
      ((if (rank % local_size + 1) % local_size = index % local_size
          then ((rank % local_size + 1) % local_size + 1) % local_size
          else (rank % local_size + 1) % local_size) + rank / local_size * local_size,
       (if (rank % local_size + local_size - 1) % local_size = index % local_size
          then ((rank % local_size + local_size - 1) % local_size + local_size - 1) % local_size
          else (rank % local_size + local_size - 1) % local_size)
         + rank / local_size * local_size) := by
    simp only [innerOuterRingRound]
    rw [if_neg hout]
  rw [hround]
  dsimp only
  have e1 := mod_small_cases (rank % local_size + 1) local_size hn0 (by omega)
  have e2 := mod_small_cases ((rank % local_size + 1) % local_size + 1) local_size hn0
    (by have := Nat.mod_lt (rank % local_size + 1) hn0; omega)
  have e3 := mod_small_cases (rank % local_size + local_size - 1) local_size hn0 (by omega)
  have e4 := mod_small_cases
    ((rank % local_size + local_size - 1) % local_size + local_size - 1) local_size hn0
    (by have := Nat.mod_lt (rank % local_size + local_size - 1) hn0; omega)
  have hrank_eq : rank % local_size + rank / local_size * local_size = rank :=
    Nat.mod_add_div' rank local_size
  constructor
  · refine ⟨localToGlobal_div _ _ _ hn0 ?_, ?_, ?_⟩
    · split_ifs <;> exact Nat.mod_lt _ hn0
    · rw [Nat.add_comm (rank / local_size * local_size) (index % local_size)]
      apply localToGlobal_ne
      split_ifs at e1 e2 ⊢ <;> omega
    · conv_rhs => rw [show rank = rank % local_size + rank / local_size * local_size
        from hrank_eq.symm]
      apply localToGlobal_ne
      split_ifs at e1 e2 ⊢ <;> omega
  · refine ⟨localToGlobal_div _ _ _ hn0 ?_, ?_, ?_⟩
    · split_ifs <;> exact Nat.mod_lt _ hn0
    · rw [Nat.add_comm (rank / local_size * local_size) (index % local_size)]
      apply localToGlobal_ne
      split_ifs at e3 e4 ⊢ <;> omega
    · conv_rhs => rw [show rank = rank % local_size + rank / local_size * local_size
        from hrank_eq.symm]
      apply localToGlobal_ne
      split_ifs at e3 e4 ⊢ <;> omega

/-- Inner rounds of the exp2 hierarchical scheduler: same on-machine,
avoids-outside-rank, avoids-self guarantees as the ring variant, with the
power-of-two distances and collision-avoidance increments of lines 560-589. -/
theorem innerOuterExp2Round_inner (world_size local_size rank index : Nat)
    (hn : 2 < local_size) (hout : index % local_size ≠ rank % local_size) :
    ((innerOuterExp2Round world_size local_size rank index).1 / local_size
        = rank / local_size ∧
      (innerOuterExp2Round world_size local_size rank index).1
        ≠ rank / local_size * local_size + index % local_size ∧
      (innerOuterExp2Round world_size local_size rank index).1 ≠ rank) ∧
    ((innerOuterExp2Round world_size local_size rank index).2 / local_size
        = rank / local_size ∧
      (innerOuterExp2Round world_size local_size rank index).2
        ≠ rank / local_size * local_size + index % local_size ∧
      (innerOuterExp2Round world_size local_size rank index).2 ≠ rank) := by
  have hn0 : 0 < local_size := by omega
  have hl : rank % local_size < local_size := Nat.mod_lt _ hn0
  have houtlt : index % local_size < local_size := Nat.mod_lt _ hn0
  have hround : innerOuterExp2Round world_size local_size rank index =
      ((rank % local_size +
          (if (index % local_size + local_size - rank % local_size) % local_size
                ≤ 2 ^ (index % (Nat.log 2 (local_size - 2) + 1))
            then 2 ^ (index % (Nat.log 2 (local_size - 2) + 1)) + 1
            else 2 ^ (index % (Nat.log 2 (local_size - 2) + 1)))) % local_size
        + rank / local_size * local_size,
       (rank % local_size + local_size -
          (if (rank % local_size + local_size - index % local_size) % local_size
                ≤ 2 ^ (index % (Nat.log 2 (local_size - 2) + 1))
            then 2 ^ (index % (Nat.log 2 (local_size - 2) + 1)) + 1
            else 2 ^ (index % (Nat.log 2 (local_size - 2) + 1))) % local_size) % local_size
        + rank / local_size * local_size) := by
    simp only [innerOuterExp2Round]
    rw [if_neg hout]
  rw [hround]
  dsimp only
  have hrank_eq : rank % local_size + rank / local_size * local_size = rank :=
    Nat.mod_add_div' rank local_size
  -- bounds on the power-of-two distance
  have hd0lo : 1 ≤ 2 ^ (index % (Nat.log 2 (local_size - 2) + 1)) :=
    Nat.one_le_two_pow
  have hd0hi : 2 ^ (index % (Nat.log 2 (local_size - 2) + 1)) ≤ local_size - 2 := by
    calc 2 ^ (index % (Nat.log 2 (local_size - 2) + 1))
        ≤ 2 ^ Nat.log 2 (local_size - 2) :=
          Nat.pow_le_pow_right (by omega)
            (Nat.le_of_lt_succ (Nat.mod_lt _ (Nat.succ_pos _)))
      _ ≤ local_size - 2 := Nat.pow_log_le_self 2 (by omega)
  -- resolve the forward collision distance
  have e5 := mod_small_cases
    (index % local_size + local_size - rank % local_size) local_size hn0 (by omega)
  have hD : 1 ≤ (index % local_size + local_size - rank % local_size) % local_size ∧
      (index % local_size + local_size - rank % local_size) % local_size
        ≤ local_size - 1 := by
    split_ifs at e5 <;> omega
  have hdne : (if (index % local_size + local_size - rank % local_size) % local_size
        ≤ 2 ^ (index % (Nat.log 2 (local_size - 2) + 1))
      then 2 ^ (index % (Nat.log 2 (local_size - 2) + 1)) + 1
      else 2 ^ (index % (Nat.log 2 (local_size - 2) + 1)))
      ≠ (index % local_size + local_size - rank % local_size) % local_size := by
    split_ifs with hc <;> omega
  have hdlo : 1 ≤ (if (index % local_size + local_size - rank % local_size) % local_size
        ≤ 2 ^ (index % (Nat.log 2 (local_size - 2) + 1))
      then 2 ^ (index % (Nat.log 2 (local_size - 2) + 1)) + 1
      else 2 ^ (index % (Nat.log 2 (local_size - 2) + 1))) := by
    split_ifs <;> omega
  have hdhi : (if (index % local_size + local_size - rank % local_size) % local_size
        ≤ 2 ^ (index % (Nat.log 2 (local_size - 2) + 1))
      then 2 ^ (index % (Nat.log 2 (local_size - 2) + 1)) + 1
      else 2 ^ (index % (Nat.log 2 (local_size - 2) + 1))) ≤ local_size - 1 := by
    split_ifs <;> omega
  -- resolve the backward collision distance
  have e7 := mod_small_cases
    (rank % local_size + local_size - index % local_size) local_size hn0 (by omega)
  have hR : 1 ≤ (rank % local_size + local_size - index % local_size) % local_size ∧
      (rank % local_size + local_size - index % local_size) % local_size
        ≤ local_size - 1 := by
    split_ifs at e7 <;> omega
  have hrne : (if (rank % local_size + local_size - index % local_size) % local_size
        ≤ 2 ^ (index % (Nat.log 2 (local_size - 2) + 1))
      then 2 ^ (index % (Nat.log 2 (local_size - 2) + 1)) + 1
      else 2 ^ (index % (Nat.log 2 (local_size - 2) + 1)))
      ≠ (rank % local_size + local_size - index % local_size) % local_size := by
    split_ifs with hc <;> omega
  have hrlo : 1 ≤ (if (rank % local_size + local_size - index % local_size) % local_size
        ≤ 2 ^ (index % (Nat.log 2 (local_size - 2) + 1))
      then 2 ^ (index % (Nat.log 2 (local_size - 2) + 1)) + 1
      else 2 ^ (index % (Nat.log 2 (local_size - 2) + 1))) := by
    split_ifs <;> omega
  have hrhi : (if (rank % local_size + local_size - index % local_size) % local_size
        ≤ 2 ^ (index % (Nat.log 2 (local_size - 2) + 1))
      then 2 ^ (index % (Nat.log 2 (local_size - 2) + 1)) + 1
      else 2 ^ (index % (Nat.log 2 (local_size - 2) + 1))) ≤ local_size - 1 := by
    split_ifs <;> omega
  -- name the two adjusted distances and forget their definitions
  generalize hdg : (if (index % local_size + local_size - rank % local_size) % local_size
        ≤ 2 ^ (index % (Nat.log 2 (local_size - 2) + 1))
      then 2 ^ (index % (Nat.log 2 (local_size - 2) + 1)) + 1
      else 2 ^ (index % (Nat.log 2 (local_size - 2) + 1))) = d at hdne hdlo hdhi ⊢
  generalize hrg : (if (rank % local_size + local_size - index % local_size) % local_size
        ≤ 2 ^ (index % (Nat.log 2 (local_size - 2) + 1))
      then 2 ^ (index % (Nat.log 2 (local_size - 2) + 1)) + 1
      else 2 ^ (index % (Nat.log 2 (local_size - 2) + 1))) = r at hrne hrlo hrhi ⊢
  rw [Nat.mod_eq_of_lt (show r < local_size by omega)]
  have e6 := mod_small_cases (rank % local_size + d) local_size hn0 (by omega)
  have e8 := mod_small_cases (rank % local_size + local_size - r) local_size hn0 (by omega)
  constructor
  · refine ⟨localToGlobal_div _ _ _ hn0 (Nat.mod_lt _ hn0), ?_, ?_⟩
    · rw [Nat.add_comm (rank / local_size * local_size) (index % local_size)]
      apply localToGlobal_ne
      split_ifs at e5 e6 ⊢ <;> omega
    · conv_rhs => rw [show rank = rank % local_size + rank / local_size * local_size
        from hrank_eq.symm]
      apply localToGlobal_ne
      split_ifs at e6 ⊢ <;> omega
  · refine ⟨localToGlobal_div _ _ _ hn0 (Nat.mod_lt _ hn0), ?_, ?_⟩
    · rw [Nat.add_comm (rank / local_size * local_size) (index % local_size)]
      apply localToGlobal_ne
      split_ifs at e7 e8 ⊢ <;> omega
    · conv_rhs => rw [show rank = rank % local_size + rank / local_size * local_size
        from hrank_eq.symm]
      apply localToGlobal_ne
      split_ifs at e8 ⊢ <;> omega

/-- **C8 (confirmed):** in both hierarchical dynamic schedulers, in every
round whose designated outside local id (`round mod local_size`) is not the
caller's, the yielded send and receive ranks lie in the caller's machine
(same `rank / local_size`), are never the machine's designated outside rank
(`machine_id * local_size + round mod local_size`), and never the caller. -/
theorem innerOuter_inner_rounds_stay_local (world_size local_size rank index : Nat)
    (hdvd : world_size % local_size = 0) (hrank : rank < world_size)
    (hn : 2 < local_size) (hout : index % local_size ≠ rank % local_size) :
    (((innerOuterRingRound world_size local_size rank index).1 / local_size
        = rank / local_size ∧
      (innerOuterRingRound world_size local_size rank index).1
        ≠ rank / local_size * local_size + index % local_size ∧
      (innerOuterRingRound world_size local_size rank index).1 ≠ rank) ∧
    ((innerOuterRingRound world_size local_size rank index).2 / local_size
        = rank / local_size ∧
      (innerOuterRingRound world_size local_size rank index).2
        ≠ rank / local_size * local_size + index % local_size ∧
      (innerOuterRingRound world_size local_size rank index).2 ≠ rank)) ∧
    (((innerOuterExp2Round world_size local_size rank index).1 / local_size
        = rank / local_size ∧
      (innerOuterExp2Round world_size local_size rank index).1
        ≠ rank / local_size * local_size + index % local_size ∧
      (innerOuterExp2Round world_size local_size rank index).1 ≠ rank) ∧
    ((innerOuterExp2Round world_size local_size rank index).2 / local_size
        = rank / local_size ∧
      (innerOuterExp2Round world_size local_size rank index).2
        ≠ rank / local_size * local_size + index % local_size ∧
      (innerOuterExp2Round world_size local_size rank index).2 ≠ rank)) :=
  ⟨innerOuterRingRound_inner world_size local_size rank index hn hout,
   innerOuterExp2Round_inner world_size local_size rank index hn hout⟩

/-- Witness for `innerOuter_inner_rounds_stay_local`:
`world_size = 12, local_size = 3, rank = 0, round = 1` (an inner round,
since `1 mod 3 ≠ 0`). -/
theorem innerOuter_inner_rounds_stay_local_witness :
    (((innerOuterRingRound 12 3 0 1).1 / 3 = 0 / 3 ∧
      (innerOuterRingRound 12 3 0 1).1 ≠ 0 / 3 * 3 + 1 % 3 ∧
      (innerOuterRingRound 12 3 0 1).1 ≠ 0) ∧
    ((innerOuterRingRound 12 3 0 1).2 / 3 = 0 / 3 ∧
      (innerOuterRingRound 12 3 0 1).2 ≠ 0 / 3 * 3 + 1 % 3 ∧
      (innerOuterRingRound 12 3 0 1).2 ≠ 0)) ∧
    (((innerOuterExp2Round 12 3 0 1).1 / 3 = 0 / 3 ∧
      (innerOuterExp2Round 12 3 0 1).1 ≠ 0 / 3 * 3 + 1 % 3 ∧
      (innerOuterExp2Round 12 3 0 1).1 ≠ 0) ∧
    ((innerOuterExp2Round 12 3 0 1).2 / 3 = 0 / 3 ∧
      (innerOuterExp2Round 12 3 0 1).2 ≠ 0 / 3 * 3 + 1 % 3 ∧
      (innerOuterExp2Round 12 3 0 1).2 ≠ 0)) :=
  innerOuter_inner_rounds_stay_local 12 3 0 1 (by decide) (by decide) (by decide) (by decide)

/-! ## C3/C4 infrastructure: sums over rotated indices and indicators -/

theorem sum_range_rotate (n s : Nat) (hs : s < n) (f : Nat → ℚ) :
    ∑ j ∈ Finset.range n, f ((j + n - s) % n) = ∑ j ∈ Finset.range n, f j := by
  have hn : 0 < n := by omega
  refine Finset.sum_nbij' (fun j => (j + n - s) % n) (fun j => (j + s) % n)
    (fun a _ => Finset.mem_range.2 (Nat.mod_lt _ hn))
    (fun a _ => Finset.mem_range.2 (Nat.mod_lt _ hn)) ?_ ?_ (fun a _ => rfl)
  · intro a ha
    have ha' : a < n := Finset.mem_range.1 ha
    have e1 := mod_small_cases (a + n - s) n hn (by omega)
    have hin : (a + n - s) % n < n := Nat.mod_lt _ hn
    have e2 := mod_small_cases ((a + n - s) % n + s) n hn (by omega)
    dsimp only
    rw [e2]
    split_ifs at e1 ⊢ <;> omega
  · intro a ha
    have ha' : a < n := Finset.mem_range.1 ha
    have e1 := mod_small_cases (a + s) n hn (by omega)
    have hin : (a + s) % n < n := Nat.mod_lt _ hn
    have e2 := mod_small_cases ((a + s) % n + n - s) n hn (by omega)
    dsimp only
    rw [e2]
    split_ifs at e1 ⊢ <;> omega

theorem sum_range_reflect_rotate (n s : Nat) (hs : s < n) (f : Nat → ℚ) :
    ∑ j ∈ Finset.range n, f ((s + n - j) % n) = ∑ j ∈ Finset.range n, f j := by
  have hn : 0 < n := by omega
  have key : ∀ a, a < n → (s + n - (s + n - a) % n) % n = a := by
    intro a ha'
    have e1 := mod_small_cases (s + n - a) n hn (by omega)
    have hin : (s + n - a) % n < n := Nat.mod_lt _ hn
    have e2 := mod_small_cases (s + n - (s + n - a) % n) n hn (by omega)
    rw [e2]
    split_ifs at e1 ⊢ <;> omega
  refine Finset.sum_nbij' (fun j => (s + n - j) % n) (fun j => (s + n - j) % n)
    (fun a _ => Finset.mem_range.2 (Nat.mod_lt _ hn))
    (fun a _ => Finset.mem_range.2 (Nat.mod_lt _ hn))
    (fun a ha => key a (Finset.mem_range.1 ha))
    (fun a ha => key a (Finset.mem_range.1 ha)) (fun a _ => rfl)

theorem sum_indicator_mem (n : Nat) (S : Finset Nat) (hS : ∀ a ∈ S, a < n) (v : ℚ) :
    ∑ j ∈ Finset.range n, (if j ∈ S then v else 0) = S.card * v := by
  rw [Finset.sum_ite_mem]
  have h : Finset.range n ∩ S = S :=
    Finset.inter_eq_right.2 (fun a ha => Finset.mem_range.2 (hS a ha))
  rw [h, Finset.sum_const, nsmul_eq_mul]

/-- Row `i` of a circulant matrix sums to the sum of the pattern vector. -/
theorem circulant_rowSum (n : Nat) (x : Nat → ℚ) (i : Nat) (hi : i < n) :
    rowSum (circulant n x) i = ∑ j ∈ Finset.range n, x j := by
  unfold rowSum circulant
  rw [show (⟨n, fun i j => x ((j + n - i % n) % n)⟩ : Digraph).size = n from rfl]
  calc ∑ j ∈ Finset.range n, x ((j + n - i % n) % n)
      = ∑ j ∈ Finset.range n, x ((j + n - i) % n) := by
        rw [Nat.mod_eq_of_lt hi]
    _ = ∑ j ∈ Finset.range n, x j := sum_range_rotate n i hi x

/-- Column `j` of a circulant matrix sums to the sum of the pattern vector. -/
theorem circulant_colSum (n : Nat) (x : Nat → ℚ) (j : Nat) (hj : j < n) :
    colSum (circulant n x) j = ∑ k ∈ Finset.range n, x k := by
  unfold colSum circulant
  rw [show (⟨n, fun i j => x ((j + n - i % n) % n)⟩ : Digraph).size = n from rfl]
  calc ∑ i ∈ Finset.range n, x ((j + n - i % n) % n)
      = ∑ i ∈ Finset.range n, x ((j + n - i) % n) :=
        Finset.sum_congr rfl (fun i hi => by
          rw [Nat.mod_eq_of_lt (Finset.mem_range.1 hi)])
    _ = ∑ k ∈ Finset.range n, x k := sum_range_reflect_rotate n j hj x

theorem pattern_sum_pos (n : Nat) (hn : 1 ≤ n) (c : Nat → ℚ) (h0 : c 0 = 1)
    (hnn : ∀ j, 0 ≤ c j) : 0 < ∑ j ∈ Finset.range n, c j := by
  have h1 : c 0 ≤ ∑ j ∈ Finset.range n, c j :=
    Finset.single_le_sum (fun i _ => hnn i) (Finset.mem_range.2 (by omega))
  rw [h0] at h1
  linarith

theorem normVec_sum_one (n : Nat) (c : Nat → ℚ)
    (hpos : 0 < ∑ k ∈ Finset.range n, c k) :
    ∑ j ∈ Finset.range n, normVec n c j = 1 := by
  unfold normVec
  rw [← Finset.sum_div]
  exact div_self (ne_of_gt hpos)

theorem normVec_nonneg (n : Nat) (c : Nat → ℚ) (hnn : ∀ j, 0 ≤ c j)
    (hpos : 0 ≤ ∑ k ∈ Finset.range n, c k) (j : Nat) : 0 ≤ normVec n c j :=
  div_nonneg (hnn j) hpos

theorem colSum_eq_rowSum_of_symm (G : Digraph)
    (hsym : ∀ i j, i < G.size → j < G.size → G.W i j = G.W j i) (j : Nat)
    (hj : j < G.size) : colSum G j = rowSum G j :=
  Finset.sum_congr rfl (fun i hi => hsym i j (Finset.mem_range.1 hi) hj)

/-! ## Row/column stochasticity of the individual builders -/

/-- The normalised circulant builders (`PowerTwoRingGraph`, `PowerGraph`,
`SymmetricPowerGraph`): rows and columns sum to 1 and entries are
non-negative, for any 0/1 pattern with a 1 in position 0. -/
theorem normVec_circulant_stochastic (n : Nat) (hn : 1 ≤ n) (c : Nat → ℚ)
    (h0 : c 0 = 1) (hnn : ∀ j, 0 ≤ c j) :
    (∀ i, i < n → rowSum (circulant n (normVec n c)) i = 1) ∧
    (∀ j, j < n → colSum (circulant n (normVec n c)) j = 1) ∧
    (∀ i j, 0 ≤ (circulant n (normVec n c)).W i j) := by
  have hpos := pattern_sum_pos n hn c h0 hnn
  refine ⟨?_, ?_, ?_⟩
  · intro i hi
    rw [circulant_rowSum n _ i hi]
    exact normVec_sum_one n c hpos
  · intro j hj
    rw [circulant_colSum n _ j hj]
    exact normVec_sum_one n c hpos
  · intro i j
    exact normVec_nonneg n c hnn (le_of_lt hpos) _

theorem powerTwoC_zero : powerTwoC 0 = 1 := rfl

theorem powerTwoC_nonneg (j : Nat) : 0 ≤ powerTwoC j := by
  unfold powerTwoC
  split_ifs <;> norm_num

theorem powerC_zero (base : Nat) : powerC base 0 = 1 := rfl

theorem powerC_nonneg (base j : Nat) : 0 ≤ powerC base j := by
  unfold powerC
  split_ifs <;> norm_num

theorem symPowerC_zero (size base : Nat) : symPowerC size base 0 = 1 := rfl

theorem symPowerC_nonneg (size base j : Nat) : 0 ≤ symPowerC size base j := by
  unfold symPowerC
  split_ifs <;> norm_num

theorem ringGraphW_size (size style : Nat) : (RingGraphW size style).size = size := by
  unfold RingGraphW
  split_ifs with h1 h2
  · exact h1.symm
  · exact h2.symm
  · rfl

theorem ringC_sum (size style : Nat) (hs : 3 ≤ size) :
    ∑ j ∈ Finset.range size, ringC size style j = 1 := by
  rcases eq_or_ne style 0 with h0 | h0
  · have hpt : ∀ j, ringC size style j =
        if j ∈ ({0, 1, size - 1} : Finset Nat) then 1/3 else 0 := by
      intro j
      simp [ringC, h0, Finset.mem_insert, Finset.mem_singleton]
    rw [Finset.sum_congr rfl (fun j _ => hpt j),
      sum_indicator_mem size {0, 1, size - 1}
        (by intro a ha; simp [Finset.mem_insert, Finset.mem_singleton] at ha; omega)]
    have hcard : ({0, 1, size - 1} : Finset Nat).card = 3 := by
      rw [Finset.card_insert_of_not_mem (by simp; omega),
        Finset.card_insert_of_not_mem (by simp; omega), Finset.card_singleton]
    rw [hcard]
    norm_num
  · rcases eq_or_ne style 1 with h1 | h1
    · have hpt : ∀ j, ringC size style j =
          if j ∈ ({0, size - 1} : Finset Nat) then 1/2 else 0 := by
        intro j
        simp [ringC, h0, h1, Finset.mem_insert, Finset.mem_singleton]
      rw [Finset.sum_congr rfl (fun j _ => hpt j),
        sum_indicator_mem size {0, size - 1}
          (by intro a ha; simp [Finset.mem_insert, Finset.mem_singleton] at ha; omega)]
      have hcard : ({0, size - 1} : Finset Nat).card = 2 := by
        rw [Finset.card_insert_of_not_mem (by simp; omega), Finset.card_singleton]
      rw [hcard]
      norm_num
    · have hpt : ∀ j, ringC size style j =
          if j ∈ ({0, 1} : Finset Nat) then 1/2 else 0 := by
        intro j
        simp [ringC, h0, h1, Finset.mem_insert, Finset.mem_singleton]
      rw [Finset.sum_congr rfl (fun j _ => hpt j),
        sum_indicator_mem size {0, 1}
          (by intro a ha; simp [Finset.mem_insert, Finset.mem_singleton] at ha; omega)]
      have hcard : ({0, 1} : Finset Nat).card = 2 := by
        rw [Finset.card_insert_of_not_mem (by simp), Finset.card_singleton]
      rw [hcard]
      norm_num

theorem ringW_stochastic (size style : Nat) (hs : 1 ≤ size) :
    (∀ i, i < size → rowSum (RingGraphW size style) i = 1) ∧
    (∀ j, j < size → colSum (RingGraphW size style) j = 1) ∧
    (∀ i j, 0 ≤ (RingGraphW size style).W i j) := by
  rcases eq_or_ne size 1 with h1 | h1
  · subst h1
    refine ⟨?_, ?_, ?_⟩ <;> intro i hi <;>
      simp [RingGraphW, rowSum, colSum]
  · rcases eq_or_ne size 2 with h2 | h2
    · subst h2
      have hW : RingGraphW 2 style = ⟨2, fun _ _ => 1/2⟩ := by
        unfold RingGraphW
        norm_num
      refine ⟨?_, ?_, ?_⟩ <;> intro i hi <;>
        simp [hW, rowSum, colSum, Finset.sum_range_succ] <;> norm_num
    · have h3 : 3 ≤ size := by omega
      have hW : RingGraphW size style = circulant size (ringC size style) := by
        unfold RingGraphW
        rw [if_neg h1, if_neg h2]
      rw [hW]
      refine ⟨?_, ?_, ?_⟩
      · intro i hi
        rw [circulant_rowSum size _ i hi, ringC_sum size style h3]
      · intro j hj
        rw [circulant_colSum size _ j hj, ringC_sum size style h3]
      · intro i j
        show 0 ≤ ringC size style _
        unfold ringC
        split_ifs <;> norm_num

theorem starW_symm (size center i j : Nat) :
    (StarGraphW size center).W i j = (StarGraphW size center).W j i := by
  unfold StarGraphW
  dsimp only
  by_cases hi : i = center <;> by_cases hj : j = center <;>
    by_cases hij : i = j <;> simp_all [eq_comm]

theorem starW_stochastic (size center : Nat) (hs : 1 ≤ size) (hc : center < size) :
    (∀ i, i < size → rowSum (StarGraphW size center) i = 1) ∧
    (∀ j, j < size → colSum (StarGraphW size center) j = 1) ∧
    (∀ i j, 0 ≤ (StarGraphW size center).W i j) := by
  have hsq : (0 : ℚ) < size := by exact_mod_cast hs
  have hrow : ∀ i, i < size → rowSum (StarGraphW size center) i = 1 := by
    intro i hi
    rcases eq_or_ne i center with hic | hic
    · have hpt : ∀ j, (StarGraphW size center).W i j = 1 / (size : ℚ) := by
        intro j
        simp [StarGraphW, hic]
      unfold rowSum
      rw [show (StarGraphW size center).size = size from rfl,
        Finset.sum_congr rfl (fun j _ => hpt j), Finset.sum_const, Finset.card_range,
        nsmul_eq_mul]
      field_simp
    · have hpt : ∀ j, (StarGraphW size center).W i j =
          (if j = center then 1 / (size : ℚ) else 0) +
          (if j = i then 1 - 1 / (size : ℚ) else 0) := by
        intro j
        by_cases hjc : j = center <;> by_cases hji : j = i <;>
          simp_all [StarGraphW, eq_comm]
      unfold rowSum
      rw [show (StarGraphW size center).size = size from rfl,
        Finset.sum_congr rfl (fun j _ => hpt j), Finset.sum_add_distrib,
        Finset.sum_ite_eq' (Finset.range size) center (fun _ => 1 / (size : ℚ)),
        Finset.sum_ite_eq' (Finset.range size) i (fun _ => 1 - 1 / (size : ℚ)),
        if_pos (Finset.mem_range.2 hc), if_pos (Finset.mem_range.2 hi)]
      ring
  refine ⟨hrow, ?_, ?_⟩
  · intro j hj
    rw [colSum_eq_rowSum_of_symm (StarGraphW size center)
      (fun i j _ _ => starW_symm size center i j) j hj]
    exact hrow j hj
  · intro i j
    unfold StarGraphW
    dsimp only
    have h1 : (0 : ℚ) ≤ 1 / (size : ℚ) := by positivity
    have h2 : 1 / (size : ℚ) ≤ 1 := by
      rw [div_le_one hsq]
      exact_mod_cast hs
    split_ifs <;> linarith

theorem fullW_stochastic (size : Nat) (hs : 1 ≤ size) :
    (∀ i, i < size → rowSum (FullyConnectedGraphW size) i = 1) ∧
    (∀ j, j < size → colSum (FullyConnectedGraphW size) j = 1) ∧
    (∀ i j, 0 ≤ (FullyConnectedGraphW size).W i j) := by
  have hsq : (0 : ℚ) < size := by exact_mod_cast hs
  have hsum : ∑ j ∈ Finset.range size, 1 / (size : ℚ) = 1 := by
    rw [Finset.sum_const, Finset.card_range, nsmul_eq_mul]
    field_simp
  refine ⟨?_, ?_, ?_⟩
  · intro i hi
    rw [show FullyConnectedGraphW size = circulant size (fun _ => 1 / (size : ℚ))
      from rfl, circulant_rowSum size _ i hi]
    exact hsum
  · intro j hj
    rw [show FullyConnectedGraphW size = circulant size (fun _ => 1 / (size : ℚ))
      from rfl, circulant_colSum size _ j hj]
    exact hsum
  · intro i j
    show (0 : ℚ) ≤ 1 / (size : ℚ)
    positivity

/-! ## Mesh grid stochasticity -/

theorem meshAdj_self (size ncol i : Nat) : meshAdj size ncol i i = true := by
  simp [meshAdj]

theorem meshAdj_symm (size ncol i j : Nat) :
    meshAdj size ncol i j = meshAdj size ncol j i := by
  rw [Bool.eq_iff_iff]
  simp only [meshAdj, Bool.or_eq_true, Bool.and_eq_true, decide_eq_true_eq]
  tauto

theorem meshDeg_pos (size ncol i : Nat) (hi : i < size) : 0 < meshDeg size ncol i :=
  Finset.card_pos.2 ⟨i, Finset.mem_filter.2 ⟨Finset.mem_range.2 hi, meshAdj_self size ncol i⟩⟩

theorem meshNbrW_symm (size ncol i j : Nat) :
    meshNbrW size ncol i j = meshNbrW size ncol j i := by
  unfold meshNbrW
  rw [meshAdj_symm]
  refine if_congr (and_congr ne_comm Iff.rfl) ?_ rfl
  rw [max_comm]

theorem meshNbrW_nonneg (size ncol i j : Nat) : 0 ≤ meshNbrW size ncol i j := by
  unfold meshNbrW
  split_ifs
  · positivity
  · exact le_refl 0

theorem meshNbrW_self (size ncol i : Nat) : meshNbrW size ncol i i = 0 := by
  simp [meshNbrW]

/-- The neighbour weights of a mesh row sum to at most `1 - 1/deg(i)`. -/
theorem meshNbrW_rowSum_le (size i : Nat) (hi : i < size) :
    ∑ k ∈ Finset.range size, meshNbrW size (meshCols size) i k
      ≤ 1 - 1 / (meshDeg size (meshCols size) i : ℚ) := by
  have hd := meshDeg_pos size (meshCols size) i hi
  have hdq : (0 : ℚ) < (meshDeg size (meshCols size) i : ℚ) := by exact_mod_cast hd
  have hterm : ∀ k, meshNbrW size (meshCols size) i k ≤
      if i ≠ k ∧ meshAdj size (meshCols size) i k = true
        then 1 / (meshDeg size (meshCols size) i : ℚ) else 0 := by
    intro k
    unfold meshNbrW
    split_ifs with h
    · apply one_div_le_one_div_of_le hdq
      exact_mod_cast le_max_left _ _
    · exact le_refl 0
  calc ∑ k ∈ Finset.range size, meshNbrW size (meshCols size) i k
      ≤ ∑ k ∈ Finset.range size,
          (if i ≠ k ∧ meshAdj size (meshCols size) i k = true
            then 1 / (meshDeg size (meshCols size) i : ℚ) else 0) :=
        Finset.sum_le_sum (fun k _ => hterm k)
    _ = ∑ k ∈ (Finset.range size).filter
          (fun k => i ≠ k ∧ meshAdj size (meshCols size) i k = true),
          1 / (meshDeg size (meshCols size) i : ℚ) :=
        (Finset.sum_filter _ _).symm
    _ = 1 - 1 / (meshDeg size (meshCols size) i : ℚ) := by
        have hset : (Finset.range size).filter
            (fun k => i ≠ k ∧ meshAdj size (meshCols size) i k = true)
            = ((Finset.range size).filter
                (fun k => meshAdj size (meshCols size) i k = true)).erase i := by
          ext k
          simp only [Finset.mem_filter, Finset.mem_erase, Finset.mem_range, ne_comm]
          tauto
        have hmemi : i ∈ (Finset.range size).filter
            (fun k => meshAdj size (meshCols size) i k = true) :=
          Finset.mem_filter.2 ⟨Finset.mem_range.2 hi, meshAdj_self _ _ i⟩
        rw [hset, Finset.sum_const, Finset.card_erase_of_mem hmemi, nsmul_eq_mul]
        show ((meshDeg size (meshCols size) i - 1 : Nat) : ℚ) * _ = _
        rw [Nat.cast_sub hd]
        push_cast
        field_simp

theorem meshW_rowSum (size i : Nat) (hi : i < size) :
    rowSum (MeshGrid2DGraphW size) i = 1 := by
  unfold rowSum
  rw [show (MeshGrid2DGraphW size).size = size from rfl,
    ← Finset.add_sum_erase _ _ (Finset.mem_range.2 hi)]
  have hdiag : (MeshGrid2DGraphW size).W i i =
      2 - (1 + ∑ k ∈ Finset.range size, meshNbrW size (meshCols size) i k) := by
    simp [MeshGrid2DGraphW]
  have hoff : ∑ j ∈ (Finset.range size).erase i, (MeshGrid2DGraphW size).W i j
      = ∑ j ∈ (Finset.range size).erase i, meshNbrW size (meshCols size) i j := by
    refine Finset.sum_congr rfl (fun j hj => ?_)
    have hne : j ≠ i := (Finset.mem_erase.1 hj).1
    simp [MeshGrid2DGraphW, (Ne.symm hne)]
  rw [hdiag, hoff, Finset.sum_erase _ (meshNbrW_self size (meshCols size) i)]
  ring

theorem meshW_symm (size i j : Nat) :
    (MeshGrid2DGraphW size).W i j = (MeshGrid2DGraphW size).W j i := by
  rcases eq_or_ne i j with rfl | hij
  · rfl
  · simp only [MeshGrid2DGraphW]
    rw [if_neg hij, if_neg (Ne.symm hij)]
    exact meshNbrW_symm size (meshCols size) i j

theorem meshW_stochastic (size : Nat) (hs : 1 ≤ size) :
    (∀ i, i < size → rowSum (MeshGrid2DGraphW size) i = 1) ∧
    (∀ j, j < size → colSum (MeshGrid2DGraphW size) j = 1) ∧
    (∀ i j, i < size → j < size → 0 ≤ (MeshGrid2DGraphW size).W i j) := by
  refine ⟨fun i hi => meshW_rowSum size i hi, ?_, ?_⟩
  · intro j hj
    rw [colSum_eq_rowSum_of_symm (MeshGrid2DGraphW size)
      (fun a b _ _ => meshW_symm size a b) j hj]
    exact meshW_rowSum size j hj
  · intro i j hi hj
    rcases eq_or_ne i j with rfl | hij
    · have hle := meshNbrW_rowSum_le size i hi
      have hd := meshDeg_pos size (meshCols size) i hi
      have hdq : (0 : ℚ) < (meshDeg size (meshCols size) i : ℚ) := by exact_mod_cast hd
      have hdinv : (0 : ℚ) < 1 / (meshDeg size (meshCols size) i : ℚ) := by positivity
      have : (MeshGrid2DGraphW size).W i i =
          2 - (1 + ∑ k ∈ Finset.range size, meshNbrW size (meshCols size) i k) := by
        simp [MeshGrid2DGraphW]
      rw [this]
      linarith
    · show 0 ≤ (MeshGrid2DGraphW size).W i j
      simp only [MeshGrid2DGraphW]
      rw [if_neg hij]
      exact meshNbrW_nonneg size (meshCols size) i j

/-! ## Inner-outer builders: counting over the machine/local decomposition -/

theorem sum_range_add (m n : Nat) (f : Nat → ℚ) :
    ∑ i ∈ Finset.range (m + n), f i
      = ∑ i ∈ Finset.range m, f i + ∑ i ∈ Finset.range n, f (m + i) := by
  have key := Finset.sum_Ico_consecutive f (Nat.zero_le m) (Nat.le_add_right m n)
  rw [← Finset.range_eq_Ico] at key
  rw [← key]
  congr 1
  rw [Finset.sum_Ico_eq_sum_range]
  have h1 : m + n - m = n := by omega
  rw [h1]

theorem sum_range_mul (M n : Nat) (f : Nat → ℚ) :
    ∑ i ∈ Finset.range (M * n), f i
      = ∑ a ∈ Finset.range M, ∑ b ∈ Finset.range n, f (a * n + b) := by
  induction M with
  | zero => simp
  | succ m ih =>
    rw [Nat.succ_mul, sum_range_add, ih, Finset.sum_range_succ]

theorem machine_coord (a b n : Nat) (hb : b < n) : (a * n + b) / n = a := by
  rw [Nat.add_comm]
  exact localToGlobal_div b a n (by omega) hb

theorem local_coord (a b n : Nat) (hb : b < n) : (a * n + b) % n = b := by
  rw [Nat.mul_comm, Nat.mul_add_mod, Nat.mod_eq_of_lt hb]

theorem mod_succ_ne (M x : Nat) (hM : 2 ≤ M) (hx : x < M) : (x + 1) % M ≠ x := by
  rw [mod_small_cases (x + 1) M (by omega) (by omega)]
  split_ifs <;> omega

theorem mod_succ_inv (M x y : Nat) (hM : 2 ≤ M) (hx : x < M) (hy : y < M) :
    (x + 1) % M = y ↔ x = (y + M - 1) % M := by
  rw [mod_small_cases (x + 1) M (by omega) (by omega),
    mod_small_cases (y + M - 1) M (by omega) (by omega)]
  split_ifs <;> omega

theorem mod_pred_ne (M y : Nat) (hM : 2 ≤ M) (hy : y < M) : (y + M - 1) % M ≠ y := by
  rw [mod_small_cases (y + M - 1) M (by omega) (by omega)]
  split_ifs <;> omega

/-- Every row of the pre-normalisation inner-outer-ring matrix sums to
`local_size` plus one cross-machine entry (none when there is a single
machine). -/
theorem ioRingPre_rowSum (M n j : Nat) (hn : 1 ≤ n) (hM : 1 ≤ M) (hj : j < M * n) :
    ∑ k ∈ Finset.range (M * n), ioRingPre M n j k
      = (n : ℚ) + (if M = 1 then 0 else 1) := by
  have hmj : j / n < M := by
    rw [Nat.div_lt_iff_lt_mul (by omega)]
    omega
  have hlj : j % n < n := Nat.mod_lt _ (by omega)
  rw [sum_range_mul]
  have hinner : ∀ a ∈ Finset.range M,
      ∑ b ∈ Finset.range n, ioRingPre M n j (a * n + b)
        = (if a = j / n then (n : ℚ) else 0) +
          (if a = (j / n + 1) % M ∧ a ≠ j / n then 1 else 0) := by
    intro a ha
    have hav : ∀ b, b < n → ioRingPre M n j (a * n + b) =
        if j / n = a then 1
        else if (j / n + 1) % M = a ∧ j % n = b then 1 else 0 := by
      intro b hb
      unfold ioRingPre
      rw [machine_coord a b n hb, local_coord a b n hb]
    rcases eq_or_ne a (j / n) with rfl | hane
    · rw [Finset.sum_congr rfl (fun b hb => hav b (Finset.mem_range.1 hb))]
      simp
    · rw [Finset.sum_congr rfl (fun b hb => hav b (Finset.mem_range.1 hb))]
      have : ∀ b ∈ Finset.range n,
          (if j / n = a then (1 : ℚ)
            else if (j / n + 1) % M = a ∧ j % n = b then 1 else 0)
          = if (j / n + 1) % M = a then (if b = j % n then 1 else 0) else 0 := by
        intro b _
        rw [if_neg (Ne.symm hane)]
        by_cases h1 : (j / n + 1) % M = a <;> by_cases h2 : j % n = b <;>
          simp_all [eq_comm]
      rw [Finset.sum_congr rfl this]
      by_cases h1 : (j / n + 1) % M = a
      · simp only [if_pos h1]
        rw [Finset.sum_ite_eq' (Finset.range n) (j % n) (fun _ => (1 : ℚ)),
          if_pos (Finset.mem_range.2 hlj), if_neg hane,
          if_pos ⟨h1.symm, hane⟩]
        norm_num
      · simp only [if_neg h1, Finset.sum_const, smul_zero, if_neg hane,
          if_neg (show ¬(a = (j / n + 1) % M ∧ a ≠ j / n) from
            fun hcon => h1 hcon.1.symm)]
        norm_num
  rw [Finset.sum_congr rfl hinner, Finset.sum_add_distrib,
    Finset.sum_ite_eq' (Finset.range M) (j / n) (fun _ => (n : ℚ)),
    if_pos (Finset.mem_range.2 hmj)]
  congr 1
  rcases eq_or_ne M 1 with rfl | hM1
  · rw [if_pos rfl]
    apply Finset.sum_eq_zero
    intro a ha
    have ha0 : a = 0 := Nat.lt_one_iff.mp (Finset.mem_range.1 ha)
    have hj0 : j / n = 0 := Nat.lt_one_iff.mp hmj
    exact if_neg (fun hcon => hcon.2 (ha0.trans hj0.symm))
  · rw [if_neg hM1]
    have hM2 : 2 ≤ M := by omega
    have hne := mod_succ_ne M (j / n) hM2 hmj
    have : ∀ a ∈ Finset.range M,
        (if a = (j / n + 1) % M ∧ a ≠ j / n then (1 : ℚ) else 0)
        = if a = (j / n + 1) % M then 1 else 0 := by
      intro a _
      by_cases h : a = (j / n + 1) % M
      · rw [if_pos ⟨h, by rw [h]; exact hne⟩, if_pos h]
      · rw [if_neg (by rintro ⟨h1, -⟩; exact h h1), if_neg h]
    rw [Finset.sum_congr rfl this,
      Finset.sum_ite_eq' (Finset.range M) ((j / n + 1) % M) (fun _ => (1 : ℚ)),
      if_pos (Finset.mem_range.2 (Nat.mod_lt _ (by omega)))]

/-- Every column of the pre-normalisation inner-outer-ring matrix has the
same sum as every row. -/
theorem ioRingPre_colSum (M n j : Nat) (hn : 1 ≤ n) (hM : 1 ≤ M) (hj : j < M * n) :
    ∑ i ∈ Finset.range (M * n), ioRingPre M n i j
      = (n : ℚ) + (if M = 1 then 0 else 1) := by
  have hmj : j / n < M := by
    rw [Nat.div_lt_iff_lt_mul (by omega)]
    omega
  have hlj : j % n < n := Nat.mod_lt _ (by omega)
  rw [sum_range_mul]
  have hinner : ∀ a ∈ Finset.range M,
      ∑ b ∈ Finset.range n, ioRingPre M n (a * n + b) j
        = (if a = j / n then (n : ℚ) else 0) +
          (if (a + 1) % M = j / n ∧ a ≠ j / n then 1 else 0) := by
    intro a ha
    have hav : ∀ b, b < n → ioRingPre M n (a * n + b) j =
        if a = j / n then 1
        else if (a + 1) % M = j / n ∧ b = j % n then 1 else 0 := by
      intro b hb
      unfold ioRingPre
      rw [machine_coord a b n hb, local_coord a b n hb]
    rw [Finset.sum_congr rfl (fun b hb => hav b (Finset.mem_range.1 hb))]
    rcases eq_or_ne a (j / n) with rfl | hane
    · simp
    · have hpt : ∀ b ∈ Finset.range n,
          (if a = j / n then (1 : ℚ)
            else if (a + 1) % M = j / n ∧ b = j % n then 1 else 0)
          = if (a + 1) % M = j / n then (if b = j % n then 1 else 0) else 0 := by
        intro b _
        rw [if_neg hane]
        by_cases h1 : (a + 1) % M = j / n <;> by_cases h2 : b = j % n <;>
          simp_all
      rw [Finset.sum_congr rfl hpt]
      by_cases h1 : (a + 1) % M = j / n
      · simp only [if_pos h1]
        rw [Finset.sum_ite_eq' (Finset.range n) (j % n) (fun _ => (1 : ℚ)),
          if_pos (Finset.mem_range.2 hlj), if_neg hane, if_pos ⟨h1, hane⟩]
        norm_num
      · simp only [if_neg h1, Finset.sum_const, smul_zero, if_neg hane,
          if_neg (show ¬((a + 1) % M = j / n ∧ a ≠ j / n) from
            fun hcon => h1 hcon.1)]
        norm_num
  rw [Finset.sum_congr rfl hinner, Finset.sum_add_distrib,
    Finset.sum_ite_eq' (Finset.range M) (j / n) (fun _ => (n : ℚ)),
    if_pos (Finset.mem_range.2 hmj)]
  congr 1
  rcases eq_or_ne M 1 with rfl | hM1
  · rw [if_pos rfl]
    apply Finset.sum_eq_zero
    intro a ha
    have ha0 : a = 0 := Nat.lt_one_iff.mp (Finset.mem_range.1 ha)
    have hj0 : j / n = 0 := Nat.lt_one_iff.mp hmj
    exact if_neg (fun hcon => hcon.2 (ha0.trans hj0.symm))
  · rw [if_neg hM1]
    have hM2 : 2 ≤ M := by omega
    have hpt : ∀ a ∈ Finset.range M,
        (if (a + 1) % M = j / n ∧ a ≠ j / n then (1 : ℚ) else 0)
        = if a = (j / n + M - 1) % M then 1 else 0 := by
      intro a ha
      have haM : a < M := Finset.mem_range.1 ha
      by_cases h : a = (j / n + M - 1) % M
      · rw [if_pos h, if_pos]
        refine ⟨(mod_succ_inv M a (j / n) hM2 haM hmj).2 h, ?_⟩
        rw [h]
        exact mod_pred_ne M (j / n) hM2 hmj
      · rw [if_neg h, if_neg]
        rintro ⟨h1, -⟩
        exact h ((mod_succ_inv M a (j / n) hM2 haM hmj).1 h1)
    rw [Finset.sum_congr rfl hpt,
      Finset.sum_ite_eq' (Finset.range M) ((j / n + M - 1) % M) (fun _ => (1 : ℚ)),
      if_pos (Finset.mem_range.2 (Nat.mod_lt _ (by omega)))]

theorem mod_sub_eq_zero_iff (M a s : Nat) (ha : a < M) (hs : s < M) :
    ((a + M - s) % M = 0 ↔ a = s) := by
  rw [mod_small_cases (a + M - s) M (by omega) (by omega)]
  split_ifs <;> omega

/-- Number (as a rational) of power-of-two circular machine distances. -/
def exp2DistCount (M : Nat) : ℚ :=
  ∑ d ∈ Finset.range M, (if d ≠ 0 ∧ isPowerOf d 2 = true then (1 : ℚ) else 0)

/-- Every row of the pre-normalisation inner-outer-exp2 matrix sums to
`local_size` plus the number of power-of-two machine distances. -/
theorem ioExp2Pre_rowSum (M n j : Nat) (hn : 1 ≤ n) (hM : 1 ≤ M) (hj : j < M * n) :
    ∑ k ∈ Finset.range (M * n), ioExp2Pre M n j k = (n : ℚ) + exp2DistCount M := by
  have hmj : j / n < M := by
    rw [Nat.div_lt_iff_lt_mul (by omega)]
    omega
  have hlj : j % n < n := Nat.mod_lt _ (by omega)
  rw [sum_range_mul]
  have hinner : ∀ a ∈ Finset.range M,
      ∑ b ∈ Finset.range n, ioExp2Pre M n j (a * n + b)
        = (if a = j / n then (n : ℚ) else 0) +
          (if (a + M - j / n) % M ≠ 0 ∧ isPowerOf ((a + M - j / n) % M) 2 = true
            then 1 else 0) := by
    intro a ha
    have haM : a < M := Finset.mem_range.1 ha
    have hav : ∀ b, b < n → ioExp2Pre M n j (a * n + b) =
        if j / n = a then 1
        else if isPowerOf ((a + M - j / n) % M) 2 = true ∧ j % n = b then 1 else 0 := by
      intro b hb
      unfold ioExp2Pre
      rw [machine_coord a b n hb, local_coord a b n hb, Nat.mod_eq_of_lt hmj]
    rw [Finset.sum_congr rfl (fun b hb => hav b (Finset.mem_range.1 hb))]
    rcases eq_or_ne a (j / n) with rfl | hane
    · have hz : (j / n + M - j / n) % M = 0 := by
        rw [mod_small_cases (j / n + M - j / n) M (by omega) (by omega)]
        split_ifs <;> omega
      simp [hz, Finset.sum_const, Finset.card_range]
    · have hnz : (a + M - j / n) % M ≠ 0 :=
        fun h => hane ((mod_sub_eq_zero_iff M a (j / n) haM hmj).1 h)
      have hpt : ∀ b ∈ Finset.range n,
          (if j / n = a then (1 : ℚ)
            else if isPowerOf ((a + M - j / n) % M) 2 = true ∧ j % n = b then 1 else 0)
          = if isPowerOf ((a + M - j / n) % M) 2 = true
              then (if b = j % n then 1 else 0) else 0 := by
        intro b _
        rw [if_neg (Ne.symm hane)]
        by_cases h1 : isPowerOf ((a + M - j / n) % M) 2 = true
        · by_cases h2 : b = j % n
          · rw [if_pos ⟨h1, h2.symm⟩, if_pos h1, if_pos h2]
          · rw [if_neg (fun hc => h2 hc.2.symm), if_pos h1, if_neg h2]
        · rw [if_neg (fun hc => h1 hc.1), if_neg h1]
      rw [Finset.sum_congr rfl hpt]
      by_cases h1 : isPowerOf ((a + M - j / n) % M) 2 = true
      · simp only [if_pos h1]
        rw [Finset.sum_ite_eq' (Finset.range n) (j % n) (fun _ => (1 : ℚ)),
          if_pos (Finset.mem_range.2 hlj), if_neg hane, if_pos ⟨hnz, h1⟩]
        norm_num
      · simp only [if_neg h1, Finset.sum_const, smul_zero, if_neg hane,
          if_neg (show ¬((a + M - j / n) % M ≠ 0 ∧
              isPowerOf ((a + M - j / n) % M) 2 = true) from
            fun hcon => h1 hcon.2)]
        norm_num
  rw [Finset.sum_congr rfl hinner, Finset.sum_add_distrib,
    Finset.sum_ite_eq' (Finset.range M) (j / n) (fun _ => (n : ℚ)),
    if_pos (Finset.mem_range.2 hmj)]
  congr 1
  exact sum_range_rotate M (j / n) hmj
    (fun d => if d ≠ 0 ∧ isPowerOf d 2 = true then (1 : ℚ) else 0)

/-- Every column of the pre-normalisation inner-outer-exp2 matrix has the
same sum as every row. -/
theorem ioExp2Pre_colSum (M n j : Nat) (hn : 1 ≤ n) (hM : 1 ≤ M) (hj : j < M * n) :
    ∑ i ∈ Finset.range (M * n), ioExp2Pre M n i j = (n : ℚ) + exp2DistCount M := by
  have hmj : j / n < M := by
    rw [Nat.div_lt_iff_lt_mul (by omega)]
    omega
  have hlj : j % n < n := Nat.mod_lt _ (by omega)
  rw [sum_range_mul]
  have hinner : ∀ a ∈ Finset.range M,
      ∑ b ∈ Finset.range n, ioExp2Pre M n (a * n + b) j
        = (if a = j / n then (n : ℚ) else 0) +
          (if (j / n + M - a) % M ≠ 0 ∧ isPowerOf ((j / n + M - a) % M) 2 = true
            then 1 else 0) := by
    intro a ha
    have haM : a < M := Finset.mem_range.1 ha
    have hav : ∀ b, b < n → ioExp2Pre M n (a * n + b) j =
        if a = j / n then 1
        else if isPowerOf ((j / n + M - a) % M) 2 = true ∧ b = j % n then 1 else 0 := by
      intro b hb
      unfold ioExp2Pre
      rw [machine_coord a b n hb, local_coord a b n hb, Nat.mod_eq_of_lt haM]
    rw [Finset.sum_congr rfl (fun b hb => hav b (Finset.mem_range.1 hb))]
    rcases eq_or_ne a (j / n) with rfl | hane
    · have hz : (j / n + M - (j / n)) % M = 0 := by
        rw [mod_small_cases (j / n + M - j / n) M (by omega) (by omega)]
        split_ifs <;> omega
      simp [hz]
    · have hnz : (j / n + M - a) % M ≠ 0 :=
        fun h => hane ((mod_sub_eq_zero_iff M (j / n) a hmj haM).1 h).symm
      have hpt : ∀ b ∈ Finset.range n,
          (if a = j / n then (1 : ℚ)
            else if isPowerOf ((j / n + M - a) % M) 2 = true ∧ b = j % n then 1 else 0)
          = if isPowerOf ((j / n + M - a) % M) 2 = true
              then (if b = j % n then 1 else 0) else 0 := by
        intro b _
        rw [if_neg hane]
        by_cases h1 : isPowerOf ((j / n + M - a) % M) 2 = true
        · by_cases h2 : b = j % n
          · rw [if_pos ⟨h1, h2⟩, if_pos h1, if_pos h2]
          · rw [if_neg (fun hc => h2 hc.2), if_pos h1, if_neg h2]
        · rw [if_neg (fun hc => h1 hc.1), if_neg h1]
      rw [Finset.sum_congr rfl hpt]
      by_cases h1 : isPowerOf ((j / n + M - a) % M) 2 = true
      · simp only [if_pos h1]
        rw [Finset.sum_ite_eq' (Finset.range n) (j % n) (fun _ => (1 : ℚ)),
          if_pos (Finset.mem_range.2 hlj), if_neg hane, if_pos ⟨hnz, h1⟩]
        norm_num
      · simp only [if_neg h1, Finset.sum_const, smul_zero, if_neg hane,
          if_neg (show ¬((j / n + M - a) % M ≠ 0 ∧
              isPowerOf ((j / n + M - a) % M) 2 = true) from
            fun hcon => h1 hcon.2)]
        norm_num
  rw [Finset.sum_congr rfl hinner, Finset.sum_add_distrib,
    Finset.sum_ite_eq' (Finset.range M) (j / n) (fun _ => (n : ℚ)),
    if_pos (Finset.mem_range.2 hmj)]
  congr 1
  exact sum_range_reflect_rotate M (j / n) hmj
    (fun d => if d ≠ 0 ∧ isPowerOf d 2 = true then (1 : ℚ) else 0)

theorem ioRingPre_nonneg (M n i j : Nat) : 0 ≤ ioRingPre M n i j := by
  unfold ioRingPre
  split_ifs <;> norm_num

theorem ioExp2Pre_nonneg (M n i j : Nat) : 0 ≤ ioExp2Pre M n i j := by
  unfold ioExp2Pre
  split_ifs <;> norm_num

theorem exp2DistCount_nonneg (M : Nat) : 0 ≤ exp2DistCount M := by
  refine Finset.sum_nonneg (fun d _ => ?_)
  split_ifs <;> norm_num

theorem ioRingW_stochastic (world loc : Nat) (hl : 1 ≤ loc) (hw : 1 ≤ world)
    (hdvd : world % loc = 0) :
    (∀ i, i < world → rowSum (InnerOuterRingGraphW world loc) i = 1) ∧
    (∀ j, j < world → colSum (InnerOuterRingGraphW world loc) j = 1) ∧
    (∀ i j, 0 ≤ (InnerOuterRingGraphW world loc).W i j) := by
  have hdvd' : loc ∣ world := Nat.dvd_of_mod_eq_zero hdvd
  have hw_eq : world / loc * loc = world := Nat.div_mul_cancel hdvd'
  have hM : 1 ≤ world / loc := (Nat.one_le_div_iff (by omega)).2 (Nat.le_of_dvd (by omega) hdvd')
  have hden : ∀ j, j < world →
      ∑ k ∈ Finset.range world, ioRingPre (world / loc) loc j k
        = (loc : ℚ) + (if world / loc = 1 then 0 else 1) := by
    intro j hj
    calc ∑ k ∈ Finset.range world, ioRingPre (world / loc) loc j k
        = ∑ k ∈ Finset.range (world / loc * loc), ioRingPre (world / loc) loc j k := by
          rw [hw_eq]
      _ = (loc : ℚ) + (if world / loc = 1 then 0 else 1) :=
          ioRingPre_rowSum (world / loc) loc j hl hM (by omega)
  have hCpos : (0 : ℚ) < (loc : ℚ) + (if world / loc = 1 then 0 else 1) := by
    have h1 : (1 : ℚ) ≤ (loc : ℚ) := by exact_mod_cast hl
    split_ifs <;> linarith
  refine ⟨?_, ?_, ?_⟩
  · intro i hi
    unfold rowSum InnerOuterRingGraphW
    rw [show (⟨world, fun i j => ioRingPre (world / loc) loc i j /
        ∑ k ∈ Finset.range world, ioRingPre (world / loc) loc j k⟩ : Digraph).size
      = world from rfl]
    calc ∑ j ∈ Finset.range world, ioRingPre (world / loc) loc i j /
          ∑ k ∈ Finset.range world, ioRingPre (world / loc) loc j k
        = ∑ j ∈ Finset.range world, ioRingPre (world / loc) loc i j /
            ((loc : ℚ) + (if world / loc = 1 then 0 else 1)) :=
          Finset.sum_congr rfl (fun j hj => by
            rw [hden j (Finset.mem_range.1 hj)])
      _ = (∑ j ∈ Finset.range world, ioRingPre (world / loc) loc i j) /
            ((loc : ℚ) + (if world / loc = 1 then 0 else 1)) :=
          (Finset.sum_div _ _ _).symm
      _ = 1 := by
          rw [hden i hi]
          exact div_self (ne_of_gt hCpos)
  · intro j hj
    unfold colSum InnerOuterRingGraphW
    rw [show (⟨world, fun i j => ioRingPre (world / loc) loc i j /
        ∑ k ∈ Finset.range world, ioRingPre (world / loc) loc j k⟩ : Digraph).size
      = world from rfl]
    calc ∑ i ∈ Finset.range world, ioRingPre (world / loc) loc i j /
          ∑ k ∈ Finset.range world, ioRingPre (world / loc) loc j k
        = ∑ i ∈ Finset.range world, ioRingPre (world / loc) loc i j /
            ((loc : ℚ) + (if world / loc = 1 then 0 else 1)) :=
          Finset.sum_congr rfl (fun i _ => by rw [hden j hj])
      _ = (∑ i ∈ Finset.range world, ioRingPre (world / loc) loc i j) /
            ((loc : ℚ) + (if world / loc = 1 then 0 else 1)) :=
          (Finset.sum_div _ _ _).symm
      _ = 1 := by
          have hcol : ∑ i ∈ Finset.range world, ioRingPre (world / loc) loc i j
              = (loc : ℚ) + (if world / loc = 1 then 0 else 1) := by
            calc ∑ i ∈ Finset.range world, ioRingPre (world / loc) loc i j
                = ∑ i ∈ Finset.range (world / loc * loc),
                    ioRingPre (world / loc) loc i j := by rw [hw_eq]
              _ = _ := ioRingPre_colSum (world / loc) loc j hl hM (by omega)
          rw [hcol]
          exact div_self (ne_of_gt hCpos)
  · intro i j
    exact div_nonneg (ioRingPre_nonneg _ _ _ _)
      (Finset.sum_nonneg (fun k _ => ioRingPre_nonneg _ _ _ _))

theorem ioExp2W_stochastic (world loc : Nat) (hl : 1 ≤ loc) (hw : 1 ≤ world)
    (hdvd : world % loc = 0) :
    (∀ i, i < world → rowSum (InnerOuterExp2GraphW world loc) i = 1) ∧
    (∀ j, j < world → colSum (InnerOuterExp2GraphW world loc) j = 1) ∧
    (∀ i j, 0 ≤ (InnerOuterExp2GraphW world loc).W i j) := by
  have hdvd' : loc ∣ world := Nat.dvd_of_mod_eq_zero hdvd
  have hw_eq : world / loc * loc = world := Nat.div_mul_cancel hdvd'
  have hM : 1 ≤ world / loc := (Nat.one_le_div_iff (by omega)).2 (Nat.le_of_dvd (by omega) hdvd')
  have hden : ∀ j, j < world →
      ∑ k ∈ Finset.range world, ioExp2Pre (world / loc) loc j k
        = (loc : ℚ) + exp2DistCount (world / loc) := by
    intro j hj
    calc ∑ k ∈ Finset.range world, ioExp2Pre (world / loc) loc j k
        = ∑ k ∈ Finset.range (world / loc * loc), ioExp2Pre (world / loc) loc j k := by
          rw [hw_eq]
      _ = _ := ioExp2Pre_rowSum (world / loc) loc j hl hM (by omega)
  have hCpos : (0 : ℚ) < (loc : ℚ) + exp2DistCount (world / loc) := by
    have h1 : (1 : ℚ) ≤ (loc : ℚ) := by exact_mod_cast hl
    have h2 := exp2DistCount_nonneg (world / loc)
    linarith
  refine ⟨?_, ?_, ?_⟩
  · intro i hi
    unfold rowSum InnerOuterExp2GraphW
    rw [show (⟨world, fun i j => ioExp2Pre (world / loc) loc i j /
        ∑ k ∈ Finset.range world, ioExp2Pre (world / loc) loc j k⟩ : Digraph).size
      = world from rfl]
    calc ∑ j ∈ Finset.range world, ioExp2Pre (world / loc) loc i j /
          ∑ k ∈ Finset.range world, ioExp2Pre (world / loc) loc j k
        = ∑ j ∈ Finset.range world, ioExp2Pre (world / loc) loc i j /
            ((loc : ℚ) + exp2DistCount (world / loc)) :=
          Finset.sum_congr rfl (fun j hj => by
            rw [hden j (Finset.mem_range.1 hj)])
      _ = (∑ j ∈ Finset.range world, ioExp2Pre (world / loc) loc i j) /
            ((loc : ℚ) + exp2DistCount (world / loc)) :=
          (Finset.sum_div _ _ _).symm
      _ = 1 := by
          rw [hden i hi]
          exact div_self (ne_of_gt hCpos)
  · intro j hj
    unfold colSum InnerOuterExp2GraphW
    rw [show (⟨world, fun i j => ioExp2Pre (world / loc) loc i j /
        ∑ k ∈ Finset.range world, ioExp2Pre (world / loc) loc j k⟩ : Digraph).size
      = world from rfl]
    calc ∑ i ∈ Finset.range world, ioExp2Pre (world / loc) loc i j /
          ∑ k ∈ Finset.range world, ioExp2Pre (world / loc) loc j k
        = ∑ i ∈ Finset.range world, ioExp2Pre (world / loc) loc i j /
            ((loc : ℚ) + exp2DistCount (world / loc)) :=
          Finset.sum_congr rfl (fun i _ => by rw [hden j hj])
      _ = (∑ i ∈ Finset.range world, ioExp2Pre (world / loc) loc i j) /
            ((loc : ℚ) + exp2DistCount (world / loc)) :=
          (Finset.sum_div _ _ _).symm
      _ = 1 := by
          have hcol : ∑ i ∈ Finset.range world, ioExp2Pre (world / loc) loc i j
              = (loc : ℚ) + exp2DistCount (world / loc) := by
            calc ∑ i ∈ Finset.range world, ioExp2Pre (world / loc) loc i j
                = ∑ i ∈ Finset.range (world / loc * loc),
                    ioExp2Pre (world / loc) loc i j := by rw [hw_eq]
              _ = _ := ioExp2Pre_colSum (world / loc) loc j hl hM (by omega)
          rw [hcol]
          exact div_self (ne_of_gt hCpos)
  · intro i j
    exact div_nonneg (ioExp2Pre_nonneg _ _ _ _)
      (Finset.sum_nonneg (fun k _ => ioExp2Pre_nonneg _ _ _ _))

/-! ## Stochasticity for every built topology -/

theorem built_rowSum_one (G : Digraph) (hG : Built G) :
    ∀ i, i < G.size → rowSum G i = 1 := by
  cases hG with
  | ring size style hs hst =>
    intro i hi
    rw [ringGraphW_size] at hi
    exact (ringW_stochastic size style hs).1 i hi
  | powerTwoRing size hs =>
    intro i hi
    exact (normVec_circulant_stochastic size hs powerTwoC powerTwoC_zero
      powerTwoC_nonneg).1 i hi
  | power size base hs hb =>
    intro i hi
    exact (normVec_circulant_stochastic size hs (powerC base) (powerC_zero base)
      (powerC_nonneg base)).1 i hi
  | symmetricPower size base hs hb =>
    intro i hi
    exact (normVec_circulant_stochastic size hs (symPowerC size base)
      (symPowerC_zero size base) (symPowerC_nonneg size base)).1 i hi
  | meshGrid size hs =>
    intro i hi
    exact (meshW_stochastic size hs).1 i hi
  | star size center hs hc =>
    intro i hi
    exact (starW_stochastic size center hs hc).1 i hi
  | fullyConnected size hs =>
    intro i hi
    exact (fullW_stochastic size hs).1 i hi
  | innerOuterRing world loc hl hw hdvd =>
    intro i hi
    exact (ioRingW_stochastic world loc hl hw hdvd).1 i hi
  | innerOuterExp2 world loc hl hw hdvd =>
    intro i hi
    exact (ioExp2W_stochastic world loc hl hw hdvd).1 i hi

theorem built_colSum_one (G : Digraph) (hG : Built G) :
    ∀ j, j < G.size → colSum G j = 1 := by
  cases hG with
  | ring size style hs hst =>
    intro j hj
    rw [ringGraphW_size] at hj
    exact (ringW_stochastic size style hs).2.1 j hj
  | powerTwoRing size hs =>
    intro j hj
    exact (normVec_circulant_stochastic size hs powerTwoC powerTwoC_zero
      powerTwoC_nonneg).2.1 j hj
  | power size base hs hb =>
    intro j hj
    exact (normVec_circulant_stochastic size hs (powerC base) (powerC_zero base)
      (powerC_nonneg base)).2.1 j hj
  | symmetricPower size base hs hb =>
    intro j hj
    exact (normVec_circulant_stochastic size hs (symPowerC size base)
      (symPowerC_zero size base) (symPowerC_nonneg size base)).2.1 j hj
  | meshGrid size hs =>
    intro j hj
    exact (meshW_stochastic size hs).2.1 j hj
  | star size center hs hc =>
    intro j hj
    exact (starW_stochastic size center hs hc).2.1 j hj
  | fullyConnected size hs =>
    intro j hj
    exact (fullW_stochastic size hs).2.1 j hj
  | innerOuterRing world loc hl hw hdvd =>
    intro j hj
    exact (ioRingW_stochastic world loc hl hw hdvd).2.1 j hj
  | innerOuterExp2 world loc hl hw hdvd =>
    intro j hj
    exact (ioExp2W_stochastic world loc hl hw hdvd).2.1 j hj

theorem built_nonneg (G : Digraph) (hG : Built G) :
    ∀ i j, i < G.size → j < G.size → 0 ≤ G.W i j := by
  cases hG with
  | ring size style hs hst =>
    intro i j _ _
    exact (ringW_stochastic size style hs).2.2 i j
  | powerTwoRing size hs =>
    intro i j _ _
    exact (normVec_circulant_stochastic size hs powerTwoC powerTwoC_zero
      powerTwoC_nonneg).2.2 i j
  | power size base hs hb =>
    intro i j _ _
    exact (normVec_circulant_stochastic size hs (powerC base) (powerC_zero base)
      (powerC_nonneg base)).2.2 i j
  | symmetricPower size base hs hb =>
    intro i j _ _
    exact (normVec_circulant_stochastic size hs (symPowerC size base)
      (symPowerC_zero size base) (symPowerC_nonneg size base)).2.2 i j
  | meshGrid size hs =>
    intro i j hi hj
    exact (meshW_stochastic size hs).2.2 i j hi hj
  | star size center hs hc =>
    intro i j _ _
    exact (starW_stochastic size center hs hc).2.2 i j
  | fullyConnected size hs =>
    intro i j _ _
    exact (fullW_stochastic size hs).2.2 i j
  | innerOuterRing world loc hl hw hdvd =>
    intro i j _ _
    exact (ioRingW_stochastic world loc hl hw hdvd).2.2 i j
  | innerOuterExp2 world loc hl hw hdvd =>
    intro i j _ _
    exact (ioExp2W_stochastic world loc hl hw hdvd).2.2 i j

/-- **C3 (confirmed):** every row of every built topology's weight matrix
sums to exactly 1 in exact rational arithmetic (in particular within the
claimed 1e-9 float tolerance), for every builder at every valid size and
family parameter. -/
theorem builders_row_stochastic (G : Digraph) (hG : Built G) (i : Nat)
    (hi : i < G.size) : rowSum G i = 1 :=
  built_rowSum_one G hG i hi

/-- Witness for `builders_row_stochastic`: row 1 of `FullyConnectedGraph(3)`. -/
theorem builders_row_stochastic_witness : rowSum (FullyConnectedGraphW 3) 1 = 1 :=
  builders_row_stochastic (FullyConnectedGraphW 3)
    (Built.fullyConnected 3 (by decide)) 1 (by decide)

/-! ## C4: the weight views are convex decompositions of the rows/columns -/

theorem sum_filter_eq_sum (l : List Nat) (f : Nat → ℚ) (p : Nat → Bool)
    (h : ∀ x ∈ l, p x = false → f x = 0) :
    ((l.filter p).map f).sum = (l.map f).sum := by
  induction l with
  | nil => rfl
  | cons a t ih =>
    by_cases hp : p a = true
    · rw [List.filter_cons_of_pos hp]
      simp only [List.map_cons, List.sum_cons]
      rw [ih (fun x hx hfx => h x (List.mem_cons_of_mem a hx) hfx)]
    · have hpf : p a = false := by
        revert hp
        cases p a <;> simp
      rw [List.filter_cons_of_neg (by simp [hpf])]
      simp only [List.map_cons, List.sum_cons]
      rw [h a (List.mem_cons_self a t) hpf, zero_add,
        ih (fun x hx hfx => h x (List.mem_cons_of_mem a hx) hfx)]

theorem sum_filter_ne_add (l : List Nat) (a : Nat) (f : Nat → ℚ) (hl : l.Nodup) :
    (if a ∈ l then f a else 0)
      + ((l.filter (fun j => decide (j ≠ a))).map f).sum = (l.map f).sum := by
  induction l with
  | nil => simp
  | cons x t ih =>
    have hnd := List.nodup_cons.mp hl
    by_cases hxa : x = a
    · subst hxa
      rw [if_pos (List.mem_cons_self x t)]
      rw [List.filter_cons_of_neg (by simp)]
      have ht : t.filter (fun j => decide (j ≠ x)) = t :=
        List.filter_eq_self.2 (fun b hb => by
          simp only [decide_eq_true_eq]
          intro hbx
          exact hnd.1 (hbx ▸ hb))
      rw [ht]
      simp
    · rw [List.filter_cons_of_pos (by simpa using hxa)]
      simp only [List.map_cons, List.sum_cons]
      have hmem : (a ∈ x :: t) ↔ (a ∈ t) := by
        constructor
        · intro h
          rcases List.mem_cons.mp h with he | ht
          · exact absurd he.symm hxa
          · exact ht
        · exact fun h => List.mem_cons_of_mem x h
      rw [if_congr hmem rfl rfl, ← ih hnd.2]
      ring

theorem getSendWeights_sum (G : Digraph) (rank : Nat) :
    (GetSendWeights G rank).1 + ((GetSendWeights G rank).2.map Prod.snd).sum
      = rowSum G rank := by
  unfold GetSendWeights
  dsimp only
  rw [List.map_map,
    show (Prod.snd ∘ fun j => (j, G.W rank j)) = fun j => G.W rank j from rfl,
    sum_filter_ne_add (successorsList G rank) rank (fun j => G.W rank j)
      (successorsList_nodup G rank)]
  unfold successorsList
  rw [sum_filter_eq_sum (List.range G.size) (fun j => G.W rank j)
    (fun j => decide (G.W rank j ≠ 0))
    (fun x _ hfx => by simpa using hfx)]
  exact list_range_map_sum G.size (fun j => G.W rank j)

theorem getRecvWeights_sum (G : Digraph) (rank : Nat) :
    (GetRecvWeights G rank).1 + ((GetRecvWeights G rank).2.map Prod.snd).sum
      = colSum G rank := by
  unfold GetRecvWeights
  dsimp only
  rw [List.map_map,
    show (Prod.snd ∘ fun j => (j, G.W j rank)) = fun j => G.W j rank from rfl,
    sum_filter_ne_add (predecessorsList G rank) rank (fun j => G.W j rank)
      ((List.nodup_range G.size).filter _)]
  unfold predecessorsList
  rw [sum_filter_eq_sum (List.range G.size) (fun j => G.W j rank)
    (fun j => decide (G.W j rank ≠ 0))
    (fun x _ hfx => by simpa using hfx)]
  exact list_range_map_sum G.size (fun j => G.W j rank)

theorem mem_predecessorsList (G : Digraph) (i j : Nat) :
    j ∈ predecessorsList G i ↔ j < G.size ∧ G.W j i ≠ 0 := by
  simp [predecessorsList, List.mem_filter, List.mem_range]

/-- **C4 (confirmed):** for every built topology and every rank, both weight
views return a non-negative self-weight and non-negative neighbour weights
summing with it to exactly 1; the receive view works because every column of
every built matrix also sums to 1. -/
theorem builders_weight_views (G : Digraph) (hG : Built G) (rank : Nat)
    (hr : rank < G.size) :
    0 ≤ (GetSendWeights G rank).1 ∧
    (∀ p ∈ (GetSendWeights G rank).2, 0 ≤ p.2) ∧
    (GetSendWeights G rank).1 + ((GetSendWeights G rank).2.map Prod.snd).sum = 1 ∧
    0 ≤ (GetRecvWeights G rank).1 ∧
    (∀ p ∈ (GetRecvWeights G rank).2, 0 ≤ p.2) ∧
    (GetRecvWeights G rank).1 + ((GetRecvWeights G rank).2.map Prod.snd).sum = 1 ∧
    (∀ j, j < G.size → colSum G j = 1) := by
  have hnn := built_nonneg G hG
  refine ⟨?_, ?_, ?_, ?_, ?_, ?_, built_colSum_one G hG⟩
  · unfold GetSendWeights
    dsimp only
    split_ifs
    · exact hnn rank rank hr hr
    · exact le_refl 0
  · intro p hp
    unfold GetSendWeights at hp
    dsimp only at hp
    rw [List.mem_map] at hp
    obtain ⟨j, hj, rfl⟩ := hp
    have hjm := (List.mem_filter.1 hj).1
    rw [mem_successorsList] at hjm
    exact hnn rank j hr hjm.1
  · rw [getSendWeights_sum]
    exact built_rowSum_one G hG rank hr
  · unfold GetRecvWeights
    dsimp only
    split_ifs
    · exact hnn rank rank hr hr
    · exact le_refl 0
  · intro p hp
    unfold GetRecvWeights at hp
    dsimp only at hp
    rw [List.mem_map] at hp
    obtain ⟨j, hj, rfl⟩ := hp
    have hjm := (List.mem_filter.1 hj).1
    rw [mem_predecessorsList] at hjm
    exact hnn j rank hjm.1 hr
  · rw [getRecvWeights_sum]
    exact built_colSum_one G hG rank hr

/-- Witness for `builders_weight_views`: rank 1 of `StarGraph(3, 0)`. -/
theorem builders_weight_views_witness :
    0 ≤ (GetSendWeights (StarGraphW 3 0) 1).1 ∧
    (∀ p ∈ (GetSendWeights (StarGraphW 3 0) 1).2, 0 ≤ p.2) ∧
    (GetSendWeights (StarGraphW 3 0) 1).1
      + ((GetSendWeights (StarGraphW 3 0) 1).2.map Prod.snd).sum = 1 ∧
    0 ≤ (GetRecvWeights (StarGraphW 3 0) 1).1 ∧
    (∀ p ∈ (GetRecvWeights (StarGraphW 3 0) 1).2, 0 ≤ p.2) ∧
    (GetRecvWeights (StarGraphW 3 0) 1).1
      + ((GetRecvWeights (StarGraphW 3 0) 1).2.map Prod.snd).sum = 1 ∧
    (∀ j, j < (StarGraphW 3 0).size → colSum (StarGraphW 3 0) j = 1) :=
  builders_weight_views (StarGraphW 3 0)
    (Built.star 3 0 (by decide) (by decide)) 1 (by decide)

end Bluefog
